import Mathlib

/-!
Verification of the yil-reviewer statistics accumulator (src/main.rs).

The program replays mahjong game logs through an external simulated game
state (`riichi::state::PlayerState`) and accumulates per-player counters
(`PlayerInfo`) plus per-player yaku tallies, then renders two tables.

Modelling choices for the shallow embedding:
* Rust `String`s are `List Char`; Rust `HashMap`s are association lists
  mutated through `aset` (the embedding's iteration order stands in for the
  hash map's unspecified iteration order).
* The external `PlayerState` is an abstract state type `S` together with an
  oracle interface `Sim S`: an `update` transition (fallible, like
  `state.update(event)?`), a `view` of all the fields the accumulator
  queries, the opponent-danger query, and the dora-successor function.
  Danger weights (`f64` in the source, used only for comparison with `0.`)
  are modelled as rationals.
* Machine integers are `Nat`/`Int`; the source's `as u32` casts are
  explicit `% 2^32` truncations (`intToU32`, and `% 4294967296` on the
  duration), and Rust's truncating `i32` division is `Int.div`.
* Fatal paths (`bail!`, `?`, `unwrap`, u64 subtraction underflow) are
  `Except String` errors.
-/

abbrev Name := List Char

/-- Association-list lookup, first match wins (models `HashMap::get`). -/
def alookup {α β : Type} [DecidableEq α] : List (α × β) → α → Option β
  | [], _ => none
  | (k, v) :: m, a => if k = a then some v else alookup m a

/-- Association-list store: replace the first binding of the key in place, or
append a new binding (models `HashMap::insert` / a mutation through `entry`). -/
def aset {α β : Type} [DecidableEq α] : List (α × β) → α → β → List (α × β)
  | [], a, b => [(a, b)]
  | (k, v) :: m, a, b => if k = a then (k, b) :: m else (k, v) :: aset m a b

/-- Per-player accumulated counters, field for field the `PlayerInfo` struct
generated by the `csv_struct!` macro in src/main.rs (all fields `u32`). -/
structure PlayerInfo where
  kyoku_count : Nat
  agari_count : Nat
  dealin_count : Nat
  riichi_count : Nat
  riichi_agari_count : Nat
  dama_agari_count : Nat
  open_agari_count : Nat
  open_count : Nat
  total_haipai_shanten : Nat
  total_agari_score : Nat
  total_dealin_score : Nat
  ura_count : Nat
  yakuman_count : Nat
  sanbaiman_count : Nat
  baiman_count : Nat
  yakuman_chance : Nat
  ippatsu_dealin_count : Nat
  ippatsu_brazen_count : Nat
  total_riichi_wait : Nat
  total_agari_waits : Nat
  dama_dealin_count : Nat
  dama_mangan_dealin_count : Nat
  action_count : Nat
  seconds_played : Nat
deriving DecidableEq, Repr

/-- The all-zero accumulator (Rust `PlayerInfo::default()`). -/
def pzero : PlayerInfo :=
  ⟨0, 0, 0, 0, 0, 0, 0, 0, 0, 0, 0, 0, 0, 0, 0, 0, 0, 0, 0, 0, 0, 0, 0, 0⟩

instance : Inhabited PlayerInfo := ⟨pzero⟩

/-- Pointwise sum of two accumulators (used to analyse the accumulation). -/
def PlayerInfo.add (a b : PlayerInfo) : PlayerInfo where
  kyoku_count := a.kyoku_count + b.kyoku_count
  agari_count := a.agari_count + b.agari_count
  dealin_count := a.dealin_count + b.dealin_count
  riichi_count := a.riichi_count + b.riichi_count
  riichi_agari_count := a.riichi_agari_count + b.riichi_agari_count
  dama_agari_count := a.dama_agari_count + b.dama_agari_count
  open_agari_count := a.open_agari_count + b.open_agari_count
  open_count := a.open_count + b.open_count
  total_haipai_shanten := a.total_haipai_shanten + b.total_haipai_shanten
  total_agari_score := a.total_agari_score + b.total_agari_score
  total_dealin_score := a.total_dealin_score + b.total_dealin_score
  ura_count := a.ura_count + b.ura_count
  yakuman_count := a.yakuman_count + b.yakuman_count
  sanbaiman_count := a.sanbaiman_count + b.sanbaiman_count
  baiman_count := a.baiman_count + b.baiman_count
  yakuman_chance := a.yakuman_chance + b.yakuman_chance
  ippatsu_dealin_count := a.ippatsu_dealin_count + b.ippatsu_dealin_count
  ippatsu_brazen_count := a.ippatsu_brazen_count + b.ippatsu_brazen_count
  total_riichi_wait := a.total_riichi_wait + b.total_riichi_wait
  total_agari_waits := a.total_agari_waits + b.total_agari_waits
  dama_dealin_count := a.dama_dealin_count + b.dama_dealin_count
  dama_mangan_dealin_count := a.dama_mangan_dealin_count + b.dama_mangan_dealin_count
  action_count := a.action_count + b.action_count
  seconds_played := a.seconds_played + b.seconds_played

/-- The normalized game events the accumulator cares about (`riichi::mjai::Event`);
every unhandled kind is collapsed into `other`, matching the `_ => {}` arm.
Tiles are their `deaka`ed 0..34 index; `deltas` is `Option<[i32; 4]>`. -/
inductive Event where
  | startKyoku
  | dahai (actor : Fin 4) (pai : Fin 34)
  | reachAccepted (actor : Fin 4)
  | hora (actor target : Fin 4) (deltas : Option (Fin 4 → Int))
      (uraMarkers : Option (List (Fin 34)))
  | endKyoku
  | other

/-- The fields of the external `PlayerState` that src/main.rs queries after an
update.  `kawaLastIsRiichi i` is `kawa[i].last().is_some_and(|x| x.as_ref()
.is_some_and(|x| x.sutehai.is_riichi))`; `fuuroEmpty i` is
`fuuro_overview[i].is_empty()`; `agariRon t` is the `.point(..).ron` value of
`calculate_agari(t, false, &[])` when that returns `Ok(Some(_))`. -/
structure StateView where
  shanten : Int
  realTimeShanten : Int
  waits : Fin 34 → Bool
  tilesSeen : Fin 34 → Nat
  kawaLastIsRiichi : Fin 4 → Bool
  isMenzen : Bool
  honba : Nat
  kyotaku : Nat
  isOya : Bool
  riichiDeclared : Fin 4 → Bool
  fuuroEmpty : Fin 4 → Bool
  tehai : Fin 34 → Nat
  canAct : Bool
  selfRiichiDeclared : Bool
  selfRiichiAccepted : Bool
  rel : Fin 4 → Fin 4
  agariRon : Fin 34 → Option Nat

/-- The external simulated game state, as an oracle interface: `init` is
`PlayerState::new`, `update` is `state.update(event)` (fallible), `view`
exposes the queried fields, `danger` is `state.calculate_danger()`'s
per-seat per-tile weights, and `next` is `must_tile!(t).next()`. -/
structure Sim (S : Type) where
  init : Fin 4 → S
  update : S → Event → Except String S
  view : S → StateView
  danger : S → Fin 4 → Fin 34 → Rat
  next : Fin 34 → Fin 34

/-- Rust `as u32` on a (possibly negative) integer: two's-complement
truncation to 32 bits. -/
def intToU32 (i : Int) : Nat := (i % 4294967296).toNat

/-- Lines 189-193 of src/main.rs: `deltas[player_id] - honba as i32 * 300 -
kyotaku as i32 * 1000`, then `* 2 / 3` (truncating `i32` division) when the
seat is dealer. -/
def normalizedSelfDelta (delta : Int) (honba kyotaku : Nat) (isOya : Bool) : Int :=
  let base := delta - (honba : Int) * 300 - (kyotaku : Int) * 1000
  if isOya then Int.tdiv (base * 2) 3 else base

/-- `waits.iter().enumerate().filter(is_wait).map(|t| 4 - tiles_seen[t]).sum()`:
the number of still-unseen copies over all currently waited-on tiles. -/
def waitCopies (v : StateView) : Nat :=
  (((List.finRange 34).filter (fun t => v.waits t)).map
    (fun t => 4 - v.tilesSeen t)).sum

/-- `tehai.iter().enumerate().map(|(t, c)| if ura_markers.contains(next t) then c
else 0).sum()`: held copies of tiles whose successor is an ura marker. -/
def uraSum (nx : Fin 34 → Fin 34) (v : StateView) (ms : List (Fin 34)) : Nat :=
  ((List.finRange 34).map (fun t => if nx t ∈ ms then v.tehai t else 0)).sum

/-- The ura bonus added on a self win: `uraSum` when markers are present
(lines 207-221), zero otherwise. -/
def uraAdd (nx : Fin 34 → Fin 34) (v : StateView) : Option (List (Fin 34)) → Nat
  | some ms => uraSum nx v ms
  | none => 0

/-- Whether the event is a discard by the replayed seat (the condition of the
`matches!` guard at line 146 and of the `Event::Dahai` arm at line 171). -/
def isSelfDahai (pid : Fin 4) : Event → Bool
  | .dahai a _ => a = pid
  | _ => false

/-- The `EndKyoku` tenpai check of lines 260-277: the seat is ready and some
waited-on tile values at 32000 or more through the exhaustive valuation query. -/
def hasYakumanWait (v : StateView) : Bool :=
  (List.finRange 34).any (fun t =>
    v.waits t && (match v.agariRon t with
      | some p => decide (p ≥ 32000)
      | none => false))

/-- One iteration of the event loop, lines 145-281 of src/main.rs.  The danger
estimate is bound to the pre-update state `st` (the query in lines 146-151
happens before `state.update(event)?`); everything else reads the post-update
view.  Errors are the `?` on update and the `bail!("missing deltas")`.
Each arm is the source's sequence of guarded `+=` statements written as a
single record update, one field per statement, with the statement's guard as
the field's `if`; `actInc` is the `can_act` increment of lines 153-155. -/
def stepEvent {S : Type} (sim : Sim S) (pid : Fin 4) (hasDur : Bool)
    (ev : Event) (acc : S × PlayerInfo) : Except String (S × PlayerInfo) :=
  let st := acc.1
  let info := acc.2
  let dangerBefore : Fin 4 → Fin 34 → Rat :=
    if isSelfDahai pid ev then sim.danger st else fun _ _ => 0
  match sim.update st ev with
  | .error e => .error e
  | .ok st' =>
    let v := sim.view st'
    let actInc : Nat := if hasDur && v.canAct then 1 else 0
    match ev with
    | .startKyoku =>
        .ok (st', { info with
          action_count := info.action_count + actInc,
          kyoku_count := info.kyoku_count + 1,
          total_haipai_shanten := info.total_haipai_shanten + intToU32 v.shanten })
    | .reachAccepted a =>
        if a = pid then
          .ok (st', { info with
            action_count := info.action_count + actInc,
            riichi_count := info.riichi_count + 1,
            total_riichi_wait := info.total_riichi_wait + waitCopies v })
        else .ok (st', { info with action_count := info.action_count + actInc })
    | .dahai a pai =>
        if a = pid then
          let hits := (((List.finRange 4).drop 1).filter (fun i =>
            v.kawaLastIsRiichi i && !v.selfRiichiAccepted &&
              decide (0 < dangerBefore i pai))).length
          .ok (st', { info with
            action_count := info.action_count + actInc,
            ippatsu_brazen_count := info.ippatsu_brazen_count + hits })
        else .ok (st', { info with action_count := info.action_count + actInc })
    | .hora actor target deltas uraMarkers =>
        match deltas with
        | none => .error "missing deltas"
        | some ds =>
          let nsd := normalizedSelfDelta (ds pid) v.honba v.kyotaku v.isOya
          if actor = pid then
            .ok (st', { info with
              action_count := info.action_count + actInc,
              agari_count := info.agari_count + 1,
              total_agari_score := info.total_agari_score + intToU32 (ds pid),
              riichi_agari_count := info.riichi_agari_count +
                (if v.isMenzen && v.selfRiichiDeclared then 1 else 0),
              dama_agari_count := info.dama_agari_count +
                (if v.isMenzen && !v.selfRiichiDeclared then 1 else 0),
              open_agari_count := info.open_agari_count +
                (if !v.isMenzen then 1 else 0),
              ura_count := info.ura_count + uraAdd sim.next v uraMarkers,
              yakuman_count := info.yakuman_count + (if nsd ≥ 32000 then 1 else 0),
              sanbaiman_count := info.sanbaiman_count + (if nsd ≥ 24000 then 1 else 0),
              baiman_count := info.baiman_count + (if nsd ≥ 16000 then 1 else 0),
              total_agari_waits := info.total_agari_waits + (1 + waitCopies v) })
          else if target = pid then
            let isIppatsu := v.kawaLastIsRiichi actor
            let isDama := !v.riichiDeclared (v.rel actor) && v.fuuroEmpty (v.rel actor)
            .ok (st', { info with
              action_count := info.action_count + actInc,
              dealin_count := info.dealin_count + 1,
              total_dealin_score := info.total_dealin_score + intToU32 (-(ds pid)),
              ippatsu_dealin_count := info.ippatsu_dealin_count +
                (if isIppatsu && !v.selfRiichiAccepted then 1 else 0),
              dama_dealin_count := info.dama_dealin_count +
                (if isDama then 1 else 0),
              dama_mangan_dealin_count := info.dama_mangan_dealin_count +
                (if isDama && decide (nsd ≤ -8000) then 1 else 0) })
          else .ok (st', { info with action_count := info.action_count + actInc })
    | .endKyoku =>
        .ok (st', { info with
          action_count := info.action_count + actInc,
          open_count := info.open_count + (if !v.isMenzen then 1 else 0),
          yakuman_chance := info.yakuman_chance +
            (if v.realTimeShanten = 0 && hasYakumanWait v then 1 else 0) })
    | .other => .ok (st', { info with action_count := info.action_count + actInc })

/-- One winning declaration of a hand-end record (`convlog HoraDetail`):
the winner's seat and the scoring-condition name strings `"Name(count..)"`. -/
structure HoraDetail where
  who : Fin 4
  yaku : List (List Char)

/-- A hand's end status: zero or more winning declarations, or a draw. -/
inductive KyokuEnd where
  | hora (details : List HoraDetail)
  | ryukyoku

/-- One hand of a tenhou log, restricted to what src/main.rs reads. -/
structure Kyoku where
  endStatus : KyokuEnd

/-- The optional `mjshead` duration metadata of a log file; a `none` field
models a missing key or a non-integer value (both fatal). -/
structure MjsHead where
  start_time : Option Nat
  end_time : Option Nat

/-- One parsed log file: the four seat names, the per-hand records, the
optional duration metadata, and the normalized event stream that the external
`tenhou_to_mjai` conversion yields for it. -/
structure GameLog where
  names : Fin 4 → Name
  kyokus : List Kyoku
  mjshead : Option MjsHead
  events : List Event

/-- Lines 104-110 of src/main.rs: absent `mjshead` means no duration; a
missing or non-integer timestamp is fatal; the `end_time - start_time` u64
subtraction is unguarded, so underflow is a failure (overflow panic). -/
def computeDuration : Option MjsHead → Except String (Option Nat)
  | none => .ok none
  | some h =>
    match h.start_time with
    | none => .error "no mjshead.start_time"
    | some s =>
      match h.end_time with
      | none => .error "no mjshead.end_time"
      | some e =>
        if s ≤ e then .ok (some (e - s)) else .error "u64 subtraction overflow"

/-- The denylisted substring of the report filter (`name.contains("ashlen")`). -/
def ashlenStr : Name := "ashlen".toList

/-- `"Ura Dora"`, the suppressed hidden-bonus indicator name. -/
def uraDoraStr : Name := "Ura Dora".toList

/-- Rust `str::split_once(c)`: split at the first occurrence of `c`, which is
removed; `none` when `c` does not occur. -/
def splitOnce (c : Char) : List Char → Option (List Char × List Char)
  | [] => none
  | x :: xs =>
    if x = c then some ([], xs)
    else (splitOnce c xs).map (fun p => (x :: p.1, p.2))

/-- Rust `str::contains(pat)` on `List Char`: `pat` occurs as a contiguous
subsequence. -/
def startsWithSeq : List Char → List Char → Bool
  | [], _ => true
  | _ :: _, [] => false
  | p :: ps, c :: cs => p = c && startsWithSeq ps cs

/-- See `startsWithSeq`; this is the substring containment test. -/
def containsSeq (pat : List Char) : List Char → Bool
  | [] => startsWithSeq pat []
  | c :: cs => startsWithSeq pat (c :: cs) || containsSeq pat cs

/-- Lines 120-128 of src/main.rs, one yaku string: parse `"Name(count.."`
(fatal if there is no `'('`), skip an `"Ura Dora"` entry whose count part
starts with `'0'`, otherwise bump the tally entry for the name. -/
def collectYakuStr (inner : List (Name × Nat)) (y : List Char) :
    Except String (List (Name × Nat)) :=
  match splitOnce '(' y with
  | none => .error "invalid tenhou yaku name"
  | some (yakuName, yakuCount) =>
    if yakuName = uraDoraStr ∧ yakuCount.head? = some '0' then .ok inner
    else .ok (aset inner yakuName ((alookup inner yakuName).getD 0 + 1))

/-- Fold of `collectYakuStr` over one declaration's yaku list. -/
def collectYakuList (inner : List (Name × Nat)) :
    List (List Char) → Except String (List (Name × Nat))
  | [] => .ok inner
  | y :: ys =>
    match collectYakuStr inner y with
    | .error e => .error e
    | .ok inner' => collectYakuList inner' ys

/-- Lines 117-129: one winning declaration updates the winner's tally entry
(`yaku_info.entry(actor_name).or_default()` inserts the entry even when the
yaku list adds nothing). -/
def collectDetail (names : Fin 4 → Name) (yi : List (Name × List (Name × Nat)))
    (d : HoraDetail) : Except String (List (Name × List (Name × Nat))) :=
  let actorName := names d.who
  let inner := (alookup yi actorName).getD []
  match collectYakuList inner d.yaku with
  | .error e => .error e
  | .ok inner' => .ok (aset yi actorName inner')

/-- Fold of `collectDetail` over a hand's winning declarations. -/
def collectDetails (names : Fin 4 → Name) (yi : List (Name × List (Name × Nat))) :
    List HoraDetail → Except String (List (Name × List (Name × Nat)))
  | [] => .ok yi
  | d :: ds =>
    match collectDetail names yi d with
    | .error e => .error e
    | .ok yi' => collectDetails names yi' ds

/-- Lines 114-133: the hand-end yaku collector over a log's hands. -/
def collectKyokus (names : Fin 4 → Name) (yi : List (Name × List (Name × Nat))) :
    List Kyoku → Except String (List (Name × List (Name × Nat)))
  | [] => .ok yi
  | ky :: kys =>
    match ky.endStatus with
    | .hora details =>
      match collectDetails names yi details with
      | .error e => .error e
      | .ok yi' => collectKyokus names yi' kys
    | .ryukyoku => collectKyokus names yi kys

/-- The event loop of lines 145-281 for one seat, threading the simulated
state and the seat's accumulator. -/
def replayEvents {S : Type} (sim : Sim S) (pid : Fin 4) (hasDur : Bool)
    (st : S) (info : PlayerInfo) : List Event → Except String (S × PlayerInfo)
  | [] => .ok (st, info)
  | ev :: evs =>
    match stepEvent sim pid hasDur ev (st, info) with
    | .error e => .error e
    | .ok (st', info') => replayEvents sim pid hasDur st' info' evs

/-- Lines 135-282 for one seat: fetch (or create) the player's accumulator,
add the truncated duration once (`duration as u32`), build a fresh state
seated at the player's position and replay every event. -/
def replayPlayer {S : Type} (sim : Sim S) (lg : GameLog) (dur : Option Nat)
    (pid : Fin 4) (pi : List (Name × PlayerInfo)) :
    Except String (List (Name × PlayerInfo)) :=
  let name := lg.names pid
  let info := (alookup pi name).getD pzero
  let info := match dur with
    | some d => { info with seconds_played := info.seconds_played + d % 4294967296 }
    | none => info
  match replayEvents sim pid dur.isSome (sim.init pid) info lg.events with
  | .error e => .error e
  | .ok (_, info') => .ok (aset pi name info')

/-- The `for player_id in 0..4` loop. -/
def runSeats {S : Type} (sim : Sim S) (lg : GameLog) (dur : Option Nat)
    (pi : List (Name × PlayerInfo)) : List (Fin 4) →
    Except String (List (Name × PlayerInfo))
  | [] => .ok pi
  | pid :: ps =>
    match replayPlayer sim lg dur pid pi with
    | .error e => .error e
    | .ok pi' => runSeats sim lg dur pi' ps

/-- Processing of one log file (lines 100-282): resolve the duration
metadata, collect the hand-end yaku, then replay the event stream once per
seat.  Any error is fatal. -/
def processLog {S : Type} (sim : Sim S) (lg : GameLog)
    (pi : List (Name × PlayerInfo)) (yi : List (Name × List (Name × Nat))) :
    Except String (List (Name × PlayerInfo) × List (Name × List (Name × Nat))) :=
  match computeDuration lg.mjshead with
  | .error e => .error e
  | .ok dur =>
    match collectKyokus lg.names yi lg.kyokus with
    | .error e => .error e
    | .ok yi' =>
      match runSeats sim lg dur pi (List.finRange 4) with
      | .error e => .error e
      | .ok pi' => .ok (pi', yi')

/-- The directory loop: process the logs in order, threading both
accumulator maps; the first error aborts the whole run. -/
def runLogs {S : Type} (sim : Sim S)
    (pi : List (Name × PlayerInfo)) (yi : List (Name × List (Name × Nat))) :
    List GameLog →
    Except String (List (Name × PlayerInfo) × List (Name × List (Name × Nat)))
  | [] => .ok (pi, yi)
  | lg :: lgs =>
    match processLog sim lg pi yi with
    | .error e => .error e
    | .ok (pi', yi') => runLogs sim pi' yi' lgs

/-- A whole run of `main` up to (not including) report output: both
accumulators start empty. -/
def runAll {S : Type} (sim : Sim S) (logs : List GameLog) :
    Except String (List (Name × PlayerInfo) × List (Name × List (Name × Nat))) :=
  runLogs sim [] [] logs

/-- Stable insertion step: the new element goes before the first element that
is not strictly before it. -/
def insertBy {α : Type} (le : α → α → Bool) (a : α) : List α → List α
  | [] => [a]
  | b :: l => if le b a && !(le a b) then b :: insertBy le a l else a :: b :: l

/-- Stable insertion sort.  Rust's `sort_by` is a stable sort, and a stable
sort's output is uniquely determined by the comparator and the input order,
so this models `slice::sort_by` exactly. -/
def sortBy {α : Type} (le : α → α → Bool) : List α → List α
  | [] => []
  | a :: l => insertBy le a (sortBy le l)

/-- `name_order.iter().position(|n| n == name)`: index of the first
occurrence. -/
def posIn {α : Type} [DecidableEq α] : List α → α → Option Nat
  | [], _ => none
  | b :: l, a => if b = a then some 0 else (posIn l a).map (· + 1)

/-- The `Ord` instance of `Option<usize>`: `None` sorts first. -/
def optLe : Option Nat → Option Nat → Bool
  | none, _ => true
  | some _, none => false
  | some x, some y => x ≤ y

/-- Lines 307-312: accumulate one player's tally into the global totals. -/
def accumTotals (totals : List (Name × Nat)) : List (Name × Nat) → List (Name × Nat)
  | [] => totals
  | (k, v) :: rest => accumTotals (aset totals k ((alookup totals k).getD 0 + v)) rest

/-- The global per-yaku totals over every player's tally (lines 307-312;
note: over every player, not only the retained ones). -/
def totalYakuCounts (yi : List (Name × List (Name × Nat))) : List (Name × Nat) :=
  yi.foldl (fun t p => accumTotals t p.2) []

/-- The rendered output of lines 285-332, minus CSV serialization: the
retained sorted primary rows, the primary name order, the yaku column order
with totals, and the yaku rows (cells in column order, `0` when absent). -/
structure Report where
  infoRows : List (Name × PlayerInfo)
  nameOrder : List Name
  yakuOrder : List (Name × Nat)
  yakuRows : List (Name × List Nat)

/-- Lines 285-332: filter players to `kyoku_count > 100` without the
denylisted substring, sort by `kyoku_count` descending; restrict the yaku map
to those names, sort its rows by position in the primary name order, and lay
out its columns by descending global total. -/
def assembleReport (pi : List (Name × PlayerInfo))
    (yi : List (Name × List (Name × Nat))) : Report :=
  let entries := pi.filter (fun p =>
    decide (p.2.kyoku_count > 100) && !containsSeq ashlenStr p.1)
  let infoRows := sortBy (fun a b => b.2.kyoku_count ≤ a.2.kyoku_count) entries
  let nameOrder := infoRows.map Prod.fst
  let yakuOrder := sortBy (fun a b => b.2 ≤ a.2) (totalYakuCounts yi)
  let yentries := yi.filter (fun p => decide (p.1 ∈ nameOrder))
  let yrows := sortBy (fun a b => optLe (posIn nameOrder a.1) (posIn nameOrder b.1))
    yentries
  let yakuRows := yrows.map (fun p =>
    (p.1, yakuOrder.map (fun q => (alookup p.2 q.1).getD 0)))
  ⟨infoRows, nameOrder, yakuOrder, yakuRows⟩

/-! ## Association-list lemmas -/

theorem alookup_aset {α β : Type} [DecidableEq α] (m : List (α × β)) (k : α) (v : β)
    (a : α) : alookup (aset m k v) a = if k = a then some v else alookup m a := by
  induction m with
  | nil => simp [aset, alookup]
  | cons p m ih =>
    obtain ⟨pk, pv⟩ := p
    simp only [aset]
    by_cases h : pk = k
    · subst h
      simp only [if_pos rfl, alookup]
      by_cases h2 : pk = a <;> simp [h2]
    · rw [if_neg h]
      simp only [alookup]
      by_cases h2 : pk = a
      · subst h2
        have hne : ¬ (k = pk) := fun hh => h hh.symm
        simp [hne]
      · simp [h2, ih]

theorem mem_keys_aset {α β : Type} [DecidableEq α] (m : List (α × β)) (k : α) (v : β)
    (a : α) : a ∈ (aset m k v).map Prod.fst ↔ a ∈ m.map Prod.fst ∨ a = k := by
  induction m with
  | nil => simp [aset]
  | cons p m ih =>
    obtain ⟨pk, pv⟩ := p
    simp only [aset]
    by_cases h : pk = k
    · subst h
      rw [if_pos rfl]
      simp only [List.map_cons, List.mem_cons]
      tauto
    · rw [if_neg h]
      simp only [List.map_cons, List.mem_cons, ih]
      tauto

theorem nodup_keys_aset {α β : Type} [DecidableEq α] (m : List (α × β)) (k : α) (v : β)
    (h : (m.map Prod.fst).Nodup) : ((aset m k v).map Prod.fst).Nodup := by
  induction m with
  | nil => simp [aset]
  | cons p m ih =>
    obtain ⟨pk, pv⟩ := p
    rw [List.map_cons, List.nodup_cons] at h
    by_cases hk : pk = k
    · subst hk
      rw [aset, if_pos rfl, List.map_cons, List.nodup_cons]
      exact h
    · rw [aset, if_neg hk, List.map_cons, List.nodup_cons]
      refine ⟨fun hmem => ?_, ih h.2⟩
      rw [mem_keys_aset] at hmem
      rcases hmem with hmem | hmem
      · exact h.1 hmem
      · exact hk hmem

theorem alookup_eq_none {α β : Type} [DecidableEq α] (m : List (α × β)) (a : α) :
    alookup m a = none ↔ a ∉ m.map Prod.fst := by
  induction m with
  | nil => simp [alookup]
  | cons p m ih =>
    obtain ⟨pk, pv⟩ := p
    by_cases h : pk = a
    · subst h
      simp [alookup]
    · simp [alookup, if_neg h, ih, Ne.symm h]

theorem alookup_isSome {α β : Type} [DecidableEq α] (m : List (α × β)) (a : α) :
    (alookup m a).isSome = true ↔ a ∈ m.map Prod.fst := by
  rcases h : alookup m a with _ | v
  · have h2 := (alookup_eq_none m a).mp h
    simp [h, h2]
  · have h2 : ¬ alookup m a = none := by simp [h]
    rw [alookup_eq_none, not_not] at h2
    simp [h2]

theorem mem_iff_alookup {α β : Type} [DecidableEq α] (m : List (α × β))
    (h : (m.map Prod.fst).Nodup) (a : α) (b : β) :
    (a, b) ∈ m ↔ alookup m a = some b := by
  induction m with
  | nil => simp [alookup]
  | cons p m ih =>
    obtain ⟨pk, pv⟩ := p
    rw [List.map_cons, List.nodup_cons] at h
    by_cases hk : pk = a
    · subst hk
      simp only [List.mem_cons, Prod.mk.injEq, alookup, eq_self_iff_true, true_and,
        if_true, Option.some.injEq]
      constructor
      · rintro (rfl | h2)
        · rfl
        · exact absurd (List.mem_map_of_mem Prod.fst h2) h.1
      · rintro rfl
        exact Or.inl rfl
    · have hk2 : ¬ (a = pk ∧ b = pv) := fun hh => hk hh.1.symm
      simp only [List.mem_cons, Prod.mk.injEq, alookup]
      rw [if_neg hk]
      simp [ih h.2, hk2]

/-! ## PlayerInfo additive structure -/

theorem PlayerInfo.add_pzero (a : PlayerInfo) : a.add pzero = a := by
  cases a
  simp [PlayerInfo.add, pzero]

theorem PlayerInfo.pzero_add (a : PlayerInfo) : pzero.add a = a := by
  cases a
  simp [PlayerInfo.add, pzero]

theorem PlayerInfo.add_assoc (a b c : PlayerInfo) :
    (a.add b).add c = a.add (b.add c) := by
  cases a
  cases b
  cases c
  simp only [PlayerInfo.add, PlayerInfo.mk.injEq]
  omega

theorem PlayerInfo.add_left_comm (a b c : PlayerInfo) :
    a.add (b.add c) = b.add (a.add c) := by
  cases a
  cases b
  cases c
  simp only [PlayerInfo.add, PlayerInfo.mk.injEq]
  omega

/-! ## The step is additive in the accumulator: every counter mutation is a
`+=` of a quantity computed only from the event and the simulated state. -/

theorem stepEvent_add {S : Type} (sim : Sim S) (pid : Fin 4) (d : Bool) (ev : Event)
    (st : S) (info : PlayerInfo) :
    stepEvent sim pid d ev (st, info) =
      (stepEvent sim pid d ev (st, pzero)).map (fun p => (p.1, info.add p.2)) := by
  cases info
  cases hu : sim.update st ev with
  | error e => simp [stepEvent, hu, Except.map]
  | ok st' =>
    cases ev with
    | startKyoku =>
      simp only [stepEvent, hu, Except.map]
      simp [PlayerInfo.add, pzero]
    | reachAccepted a =>
      simp only [stepEvent, hu, Except.map]
      split_ifs <;> simp [PlayerInfo.add, pzero]
    | dahai a pai =>
      simp only [stepEvent, hu, Except.map, isSelfDahai]
      split_ifs <;> simp [PlayerInfo.add, pzero]
    | hora actor target deltas um =>
      cases deltas with
      | none => simp [stepEvent, hu, Except.map]
      | some ds =>
        simp only [stepEvent, hu, Except.map]
        split_ifs <;> simp [PlayerInfo.add, pzero]
    | endKyoku =>
      simp only [stepEvent, hu, Except.map]
      simp [PlayerInfo.add, pzero]
    | other =>
      simp [stepEvent, hu, Except.map, PlayerInfo.add, pzero]

/-- The per-step increment (the step applied to the zero accumulator)
satisfies the classification and tier-nesting invariants, never touches
`seconds_played`, and touches `action_count` only when a duration resolved. -/
theorem stepDelta_props {S : Type} (sim : Sim S) (pid : Fin 4) (d : Bool) (ev : Event)
    (st st2 : S) (δ : PlayerInfo)
    (h : stepEvent sim pid d ev (st, pzero) = .ok (st2, δ)) :
    δ.riichi_agari_count + δ.dama_agari_count + δ.open_agari_count = δ.agari_count ∧
    δ.yakuman_count ≤ δ.sanbaiman_count ∧ δ.sanbaiman_count ≤ δ.baiman_count ∧
    δ.baiman_count ≤ δ.agari_count ∧
    δ.seconds_played = 0 ∧ (d = false → δ.action_count = 0) := by
  cases hu : sim.update st ev with
  | error e => simp [stepEvent, hu] at h
  | ok st' =>
    cases ev with
    | startKyoku =>
      simp only [stepEvent, hu, Except.ok.injEq, Prod.mk.injEq] at h
      obtain ⟨-, rfl⟩ := h
      simp only [pzero]
      exact ⟨by simp, by simp, by simp, by simp, by simp,
        fun hd => by subst hd; simp⟩
    | reachAccepted a =>
      simp only [stepEvent, hu] at h
      by_cases ha : a = pid <;>
        [rw [if_pos ha] at h; rw [if_neg ha] at h] <;>
        simp only [Except.ok.injEq, Prod.mk.injEq] at h <;>
        obtain ⟨-, rfl⟩ := h <;>
        simp only [pzero] <;>
        exact ⟨by simp, by simp, by simp, by simp, by simp,
          fun hd => by subst hd; simp⟩
    | dahai a pai =>
      simp only [stepEvent, hu] at h
      by_cases ha : a = pid <;>
        [rw [if_pos ha] at h; rw [if_neg ha] at h] <;>
        simp only [Except.ok.injEq, Prod.mk.injEq] at h <;>
        obtain ⟨-, rfl⟩ := h <;>
        simp only [pzero] <;>
        exact ⟨by simp, by simp, by simp, by simp, by simp,
          fun hd => by subst hd; simp⟩
    | hora actor target deltas um =>
      cases deltas with
      | none => simp [stepEvent, hu] at h
      | some ds =>
        simp only [stepEvent, hu] at h
        by_cases ha : actor = pid
        · rw [if_pos ha] at h
          simp only [Except.ok.injEq, Prod.mk.injEq] at h
          obtain ⟨-, rfl⟩ := h
          simp only [pzero]
          refine ⟨?_, ?_, ?_, ?_, by simp, fun hd => by subst hd; simp⟩ <;>
            simp only [Nat.zero_add] <;>
            split_ifs <;>
            first
              | rfl
              | omega
              | simp_all
        · rw [if_neg ha] at h
          by_cases ht : target = pid
          · rw [if_pos ht] at h
            simp only [Except.ok.injEq, Prod.mk.injEq] at h
            obtain ⟨-, rfl⟩ := h
            simp only [pzero]
            exact ⟨by simp, by simp, by simp, by simp, by simp,
              fun hd => by subst hd; simp⟩
          · rw [if_neg ht] at h
            simp only [Except.ok.injEq, Prod.mk.injEq] at h
            obtain ⟨-, rfl⟩ := h
            simp only [pzero]
            exact ⟨by simp, by simp, by simp, by simp, by simp,
              fun hd => by subst hd; simp⟩
    | endKyoku =>
      simp only [stepEvent, hu, Except.ok.injEq, Prod.mk.injEq] at h
      obtain ⟨-, rfl⟩ := h
      simp only [pzero]
      exact ⟨by simp, by simp, by simp, by simp, by simp,
        fun hd => by subst hd; simp⟩
    | other =>
      simp only [stepEvent, hu, Except.ok.injEq, Prod.mk.injEq] at h
      obtain ⟨-, rfl⟩ := h
      simp only [pzero]
      exact ⟨by simp, by simp, by simp, by simp, by simp,
        fun hd => by subst hd; simp⟩

/-- Replaying a whole event list is additive in the starting accumulator. -/
theorem replayEvents_add {S : Type} (sim : Sim S) (pid : Fin 4) (d : Bool)
    (evs : List Event) : ∀ (st : S) (info : PlayerInfo),
    replayEvents sim pid d st info evs =
      (replayEvents sim pid d st pzero evs).map (fun p => (p.1, info.add p.2)) := by
  induction evs with
  | nil =>
    intro st info
    simp [replayEvents, Except.map, PlayerInfo.add_pzero]
  | cons ev evs ih =>
    intro st info
    simp only [replayEvents]
    rw [stepEvent_add sim pid d ev st info]
    cases hs : stepEvent sim pid d ev (st, pzero) with
    | error e => simp [Except.map]
    | ok p =>
      obtain ⟨st', δ⟩ := p
      simp only [Except.map]
      rw [ih st' (info.add δ), ih st' δ]
      cases hr : replayEvents sim pid d st' pzero evs with
      | error e => simp [Except.map]
      | ok q => simp [Except.map, PlayerInfo.add_assoc]

/-- A whole replay's increment (replay from the zero accumulator) satisfies
the same per-delta invariants as a single step. -/
theorem replayDelta_props {S : Type} (sim : Sim S) (pid : Fin 4) (d : Bool)
    (evs : List Event) : ∀ (st st2 : S) (δ : PlayerInfo),
    replayEvents sim pid d st pzero evs = .ok (st2, δ) →
    δ.riichi_agari_count + δ.dama_agari_count + δ.open_agari_count = δ.agari_count ∧
    δ.yakuman_count ≤ δ.sanbaiman_count ∧ δ.sanbaiman_count ≤ δ.baiman_count ∧
    δ.baiman_count ≤ δ.agari_count ∧
    δ.seconds_played = 0 ∧ (d = false → δ.action_count = 0) := by
  induction evs with
  | nil =>
    intro st st2 δ h
    simp only [replayEvents, Except.ok.injEq, Prod.mk.injEq] at h
    obtain ⟨-, rfl⟩ := h
    simp [pzero]
  | cons ev evs ih =>
    intro st st2 δ h
    simp only [replayEvents] at h
    cases hs : stepEvent sim pid d ev (st, pzero) with
    | error e =>
      rw [hs] at h
      have hc : (Except.error e : Except String (S × PlayerInfo)) = .ok (st2, δ) := h
      exact Except.noConfusion hc
    | ok p =>
      obtain ⟨st', δ₁⟩ := p
      rw [hs] at h
      have hc : replayEvents sim pid d st' δ₁ evs = .ok (st2, δ) := h
      rw [replayEvents_add sim pid d evs st' δ₁] at hc
      cases hr : replayEvents sim pid d st' pzero evs with
      | error e =>
        simp only [hr, Except.map] at hc
        exact Except.noConfusion hc
      | ok q =>
        obtain ⟨st3, δ₂⟩ := q
        simp only [hr, Except.map, Except.ok.injEq, Prod.mk.injEq] at hc
        obtain ⟨-, rfl⟩ := hc
        have h1 := stepDelta_props sim pid d ev st st' δ₁ hs
        have h2 := ih st' st3 δ₂ hr
        simp only [PlayerInfo.add]
        refine ⟨by omega, by omega, by omega, by omega, by omega, fun hd => ?_⟩
        have := h1.2.2.2.2.2 hd
        have := h2.2.2.2.2.2 hd
        omega

/-- Sum of a list of accumulators. -/
def psum : List PlayerInfo → PlayerInfo
  | [] => pzero
  | a :: l => a.add (psum l)

theorem psum_perm {l₁ l₂ : List PlayerInfo} (h : l₁.Perm l₂) : psum l₁ = psum l₂ := by
  induction h with
  | nil => rfl
  | cons a h ih => simp [psum, ih]
  | swap a b l => simp [psum, PlayerInfo.add_left_comm]
  | trans h1 h2 ih1 ih2 => exact ih1.trans ih2

/-- A win event with absent deltas makes the step fail, whatever the state. -/
theorem stepEvent_horaNone {S : Type} (sim : Sim S) (pid : Fin 4) (d : Bool)
    (a t : Fin 4) (um : Option (List (Fin 34))) (acc : S × PlayerInfo) :
    ∃ e, stepEvent sim pid d (.hora a t none um) acc = .error e := by
  cases hu : sim.update acc.1 (Event.hora a t none um) with
  | error e => exact ⟨e, by simp [stepEvent, hu]⟩
  | ok st' => exact ⟨"missing deltas", by simp [stepEvent, hu]⟩

/-- A replay over an event list containing a win event with absent deltas
never succeeds. -/
theorem replayEvents_horaNone {S : Type} (sim : Sim S) (pid : Fin 4) (d : Bool)
    (evs : List Event) (a t : Fin 4) (um : Option (List (Fin 34)))
    (hmem : Event.hora a t none um ∈ evs) : ∀ (st : S) (info : PlayerInfo) (r : S × PlayerInfo),
    replayEvents sim pid d st info evs ≠ .ok r := by
  induction evs with
  | nil => cases hmem
  | cons ev evs ih =>
    intro st info r
    rcases List.mem_cons.mp hmem with rfl | hmem2
    · obtain ⟨e, he⟩ := stepEvent_horaNone sim pid d a t um (st, info)
      simp [replayEvents, he]
    · simp only [replayEvents]
      cases hs : stepEvent sim pid d ev (st, info) with
      | error e => simp
      | ok p => exact ih hmem2 p.1 p.2 r

/-- The accumulator increment of the duration metadata alone
(`info.seconds_played += duration as u32`, lines 139-141). -/
def durationInfo : Option Nat → PlayerInfo
  | some dd => { pzero with seconds_played := dd % 4294967296 }
  | none => pzero

/-- One seat's whole per-log increment: the truncated duration plus the
replay increment from a fresh state; fails when the replay fails. -/
def seatDelta {S : Type} (sim : Sim S) (lg : GameLog) (dur : Option Nat)
    (pid : Fin 4) : Except String PlayerInfo :=
  (replayEvents sim pid dur.isSome (sim.init pid) pzero lg.events).map
    (fun p => (durationInfo dur).add p.2)

/-- Total version of `seatDelta` (zero on failure), used to state sums. -/
def seatDeltaD {S : Type} (sim : Sim S) (lg : GameLog) (dur : Option Nat)
    (pid : Fin 4) : PlayerInfo :=
  match seatDelta sim lg dur pid with
  | .ok c => c
  | .error _ => pzero

/-- `replayPlayer` only adds the seat's per-log increment to the player's
current accumulator entry. -/
theorem replayPlayer_eq {S : Type} (sim : Sim S) (lg : GameLog) (dur : Option Nat)
    (pid : Fin 4) (pi : List (Name × PlayerInfo)) :
    replayPlayer sim lg dur pid pi =
      (seatDelta sim lg dur pid).map (fun c =>
        aset pi (lg.names pid) (((alookup pi (lg.names pid)).getD pzero).add c)) := by
  have hbase : ∀ (base : PlayerInfo),
      (match dur with
        | some d => { base with seconds_played := base.seconds_played + d % 4294967296 }
        | none => base) = base.add (durationInfo dur) := by
    intro base
    cases dur with
    | none => simp [durationInfo, PlayerInfo.add_pzero]
    | some dd =>
      cases base
      simp [durationInfo, PlayerInfo.add, pzero]
  simp only [replayPlayer, hbase]
  rw [replayEvents_add]
  cases hr : replayEvents sim pid dur.isSome (sim.init pid) pzero lg.events with
  | error e => simp [seatDelta, hr, Except.map]
  | ok p => simp [seatDelta, hr, Except.map, PlayerInfo.add_assoc]

/-- Summed increments of the seats in `ps` whose seat name is `name`. -/
def seatsContrib {S : Type} (sim : Sim S) (lg : GameLog) (dur : Option Nat)
    (ps : List (Fin 4)) (name : Name) : PlayerInfo :=
  psum ((ps.filter (fun pid => lg.names pid = name)).map
    (fun pid => seatDeltaD sim lg dur pid))

/-- Characterization of the seat loop: each name's entry after the loop is
its entry before plus the summed increments of that name's seats, and an
entry exists exactly for previously known or seated names. -/
theorem runSeats_lookup {S : Type} (sim : Sim S) (lg : GameLog) (dur : Option Nat) :
    ∀ (ps : List (Fin 4)) (pi pi' : List (Name × PlayerInfo)),
    runSeats sim lg dur pi ps = .ok pi' → ∀ name,
    alookup pi' name =
      if name ∈ pi.map Prod.fst ∨ ∃ pid ∈ ps, lg.names pid = name
      then some (((alookup pi name).getD pzero).add (seatsContrib sim lg dur ps name))
      else none := by
  intro ps
  induction ps with
  | nil =>
    intro pi pi' h name
    have hc : pi = pi' := by
      have h2 : Except.ok pi = (Except.ok pi' : Except String (List (Name × PlayerInfo))) := h
      exact (Except.ok.injEq _ _).mp h2
    subst hc
    simp only [seatsContrib, List.filter_nil, List.map_nil, psum, PlayerInfo.add_pzero,
      List.not_mem_nil, false_and, exists_false, or_false]
    cases hl : alookup pi name with
    | none =>
      rw [if_neg]
      exact (alookup_eq_none pi name).mp hl
    | some v =>
      have hm : name ∈ pi.map Prod.fst := by
        rw [← alookup_isSome]
        simp [hl]
      rw [if_pos hm]
      simp
  | cons pid ps ih =>
    intro pi pi' h name
    simp only [runSeats] at h
    cases hp : replayPlayer sim lg dur pid pi with
    | error e =>
      rw [hp] at h
      exact Except.noConfusion (h : (Except.error e : Except String _) = .ok pi')
    | ok pi₁ =>
      rw [hp] at h
      have hc : runSeats sim lg dur pi₁ ps = .ok pi' := h
      have hchar := ih pi₁ pi' hc name
      rw [replayPlayer_eq] at hp
      cases hsd : seatDelta sim lg dur pid with
      | error e =>
        rw [hsd] at hp
        simp only [Except.map] at hp
        exact Except.noConfusion hp
      | ok c =>
        rw [hsd] at hp
        simp only [Except.map, Except.ok.injEq] at hp
        subst hp
        have hdd : seatDeltaD sim lg dur pid = c := by
          simp [seatDeltaD, hsd]
        by_cases hname : lg.names pid = name
        · rw [hchar]
          have hl1 : alookup (aset pi (lg.names pid)
              (((alookup pi (lg.names pid)).getD pzero).add c)) name =
              some (((alookup pi name).getD pzero).add c) := by
            rw [alookup_aset, if_pos hname, hname]
          have hm1 : name ∈ (aset pi (lg.names pid)
              (((alookup pi (lg.names pid)).getD pzero).add c)).map Prod.fst := by
            rw [mem_keys_aset]
            exact Or.inr hname.symm
          rw [if_pos (Or.inl hm1), hl1]
          have hcond : name ∈ pi.map Prod.fst ∨ ∃ p ∈ pid :: ps, lg.names p = name :=
            Or.inr ⟨pid, List.mem_cons_self pid ps, hname⟩
          rw [if_pos hcond]
          have hfil : (pid :: ps).filter (fun p => lg.names p = name) =
              pid :: ps.filter (fun p => lg.names p = name) := by
            simp [List.filter_cons, hname]
          simp only [seatsContrib, hfil, List.map_cons, psum, hdd,
            Option.getD_some, PlayerInfo.add_assoc]
        · rw [hchar]
          have hl1 : alookup (aset pi (lg.names pid)
              (((alookup pi (lg.names pid)).getD pzero).add c)) name =
              alookup pi name := by
            rw [alookup_aset, if_neg hname]
          have hm1 : name ∈ (aset pi (lg.names pid)
              (((alookup pi (lg.names pid)).getD pzero).add c)).map Prod.fst ↔
              name ∈ pi.map Prod.fst := by
            rw [mem_keys_aset]
            constructor
            · rintro (hh | hh)
              · exact hh
              · exact absurd hh.symm hname
            · exact Or.inl
          have hfil : (pid :: ps).filter (fun p => lg.names p = name) =
              ps.filter (fun p => lg.names p = name) := by
            simp [List.filter_cons, hname]
          have hex : (∃ p ∈ pid :: ps, lg.names p = name) ↔
              (∃ p ∈ ps, lg.names p = name) := by
            constructor
            · rintro ⟨p, hmem, hp2⟩
              rcases List.mem_cons.mp hmem with rfl | hmem2
              · exact absurd hp2 hname
              · exact ⟨p, hmem2, hp2⟩
            · rintro ⟨p, hmem, hp2⟩
              exact ⟨p, List.mem_cons_of_mem _ hmem, hp2⟩
          rw [hl1]
          simp only [hm1, hex, seatsContrib, hfil]

/-! ## Yaku collector characterization -/

/-- What one yaku string adds to the tally entry `target` (when it parses):
one when its name part is `target` and it is not a zero-count hidden-bonus
marker, else zero. -/
def yakuStrContrib (target : Name) (y : List Char) : Nat :=
  match splitOnce '(' y with
  | none => 0
  | some (yn, yc) =>
    if yn = target ∧ ¬(yn = uraDoraStr ∧ yc.head? = some '0') then 1 else 0

/-- What one winning declaration adds to player `name`'s tally entry `target`. -/
def detailContrib (names : Fin 4 → Name) (d : HoraDetail) (name target : Name) : Nat :=
  if names d.who = name then (d.yaku.map (yakuStrContrib target)).sum else 0

/-- What one hand's end status adds to player `name`'s tally entry `target`. -/
def kyokuContrib (names : Fin 4 → Name) (ky : Kyoku) (name target : Name) : Nat :=
  match ky.endStatus with
  | .hora ds => (ds.map (fun d => detailContrib names d name target)).sum
  | .ryukyoku => 0

/-- What one whole log adds to player `name`'s tally entry `target`. -/
def logYakuContrib (lg : GameLog) (name target : Name) : Nat :=
  (lg.kyokus.map (fun ky => kyokuContrib lg.names ky name target)).sum

/-- Whether `name` is the actor of some winning declaration of the log. -/
def hasActor (lg : GameLog) (name : Name) : Bool :=
  lg.kyokus.any (fun ky => match ky.endStatus with
    | .hora ds => ds.any (fun d => lg.names d.who = name)
    | .ryukyoku => false)

/-- The tally count of player `name` for yaku `target` in the accumulator. -/
def tallyOf (yi : List (Name × List (Name × Nat))) (name target : Name) : Nat :=
  (alookup ((alookup yi name).getD []) target).getD 0

theorem collectYakuStr_char (inner inner' : List (Name × Nat)) (y : List Char)
    (h : collectYakuStr inner y = .ok inner') :
    (∀ t, (alookup inner' t).getD 0 = (alookup inner t).getD 0 + yakuStrContrib t y) ∧
    (∀ t, t ∈ inner'.map Prod.fst ↔
      t ∈ inner.map Prod.fst ∨ yakuStrContrib t y ≠ 0) := by
  cases hs : splitOnce '(' y with
  | none => simp [collectYakuStr, hs] at h
  | some p =>
    obtain ⟨yn, yc⟩ := p
    simp only [collectYakuStr, hs] at h
    by_cases hsup : yn = uraDoraStr ∧ yc.head? = some '0'
    · rw [if_pos hsup] at h
      have hi : inner = inner' := (Except.ok.injEq _ _).mp h
      subst hi
      constructor
      · intro t
        simp [yakuStrContrib, hs, hsup]
      · intro t
        simp [yakuStrContrib, hs, hsup]
    · rw [if_neg hsup] at h
      have hi : aset inner yn ((alookup inner yn).getD 0 + 1) = inner' :=
        (Except.ok.injEq _ _).mp h
      subst hi
      constructor
      · intro t
        rw [alookup_aset]
        by_cases ht : yn = t
        · subst ht
          simp [yakuStrContrib, hs, hsup]
        · rw [if_neg ht]
          have : yakuStrContrib t y = 0 := by
            simp only [yakuStrContrib, hs]
            rw [if_neg]
            rintro ⟨rfl, -⟩
            exact ht rfl
          simp [this]
      · intro t
        rw [mem_keys_aset]
        by_cases ht : t = yn
        · subst ht
          simp [yakuStrContrib, hs, hsup]
        · have : yakuStrContrib t y = 0 := by
            simp only [yakuStrContrib, hs]
            rw [if_neg]
            rintro ⟨rfl, -⟩
            exact ht rfl
          simp [this, ht]

theorem collectYakuList_char (ys : List (List Char)) :
    ∀ (inner inner' : List (Name × Nat)),
    collectYakuList inner ys = .ok inner' →
    (∀ t, (alookup inner' t).getD 0 =
      (alookup inner t).getD 0 + (ys.map (yakuStrContrib t)).sum) ∧
    (∀ t, t ∈ inner'.map Prod.fst ↔
      t ∈ inner.map Prod.fst ∨ ∃ y ∈ ys, yakuStrContrib t y ≠ 0) := by
  induction ys with
  | nil =>
    intro inner inner' h
    have hi : inner = inner' := (Except.ok.injEq _ _).mp h
    subst hi
    simp
  | cons y ys ih =>
    intro inner inner' h
    simp only [collectYakuList] at h
    cases hs : collectYakuStr inner y with
    | error e =>
      rw [hs] at h
      exact Except.noConfusion (h : (Except.error e : Except String _) = .ok inner')
    | ok inner₁ =>
      rw [hs] at h
      have hc : collectYakuList inner₁ ys = .ok inner' := h
      obtain ⟨h1, h2⟩ := collectYakuStr_char inner inner₁ y hs
      obtain ⟨h3, h4⟩ := ih inner₁ inner' hc
      constructor
      · intro t
        rw [h3 t, h1 t]
        simp [Nat.add_assoc]
      · intro t
        rw [h4 t, h2 t]
        constructor
        · rintro ((hm | hm) | ⟨yy, hy, hyc⟩)
          · exact Or.inl hm
          · exact Or.inr ⟨y, List.mem_cons_self y ys, hm⟩
          · exact Or.inr ⟨yy, List.mem_cons_of_mem _ hy, hyc⟩
        · rintro (hm | ⟨yy, hy, hyc⟩)
          · exact Or.inl (Or.inl hm)
          · rcases List.mem_cons.mp hy with rfl | hy2
            · exact Or.inl (Or.inr hyc)
            · exact Or.inr ⟨yy, hy2, hyc⟩

theorem collectDetail_char (names : Fin 4 → Name)
    (yi yi' : List (Name × List (Name × Nat))) (d : HoraDetail)
    (h : collectDetail names yi d = .ok yi') :
    (∀ n t, tallyOf yi' n t = tallyOf yi n t + detailContrib names d n t) ∧
    (∀ n, n ∈ yi'.map Prod.fst ↔ n ∈ yi.map Prod.fst ∨ names d.who = n) := by
  simp only [collectDetail] at h
  cases hl : collectYakuList ((alookup yi (names d.who)).getD []) d.yaku with
  | error e =>
    rw [hl] at h
    exact Except.noConfusion (h : (Except.error e : Except String _) = .ok yi')
  | ok inner' =>
    rw [hl] at h
    have hi : aset yi (names d.who) inner' = yi' := (Except.ok.injEq _ _).mp h
    subst hi
    obtain ⟨h1, -⟩ := collectYakuList_char d.yaku _ _ hl
    constructor
    · intro n t
      by_cases hn : names d.who = n
      · subst hn
        simp only [tallyOf, detailContrib, if_pos rfl]
        rw [alookup_aset, if_pos rfl]
        simp only [Option.getD_some]
        exact h1 t
      · simp only [tallyOf, detailContrib, if_neg hn]
        rw [alookup_aset, if_neg hn]
        simp
    · intro n
      rw [mem_keys_aset]
      constructor
      · rintro (hm | rfl)
        · exact Or.inl hm
        · exact Or.inr rfl
      · rintro (hm | rfl)
        · exact Or.inl hm
        · exact Or.inr rfl

theorem collectDetails_char (names : Fin 4 → Name) (ds : List HoraDetail) :
    ∀ (yi yi' : List (Name × List (Name × Nat))),
    collectDetails names yi ds = .ok yi' →
    (∀ n t, tallyOf yi' n t =
      tallyOf yi n t + (ds.map (fun d => detailContrib names d n t)).sum) ∧
    (∀ n, n ∈ yi'.map Prod.fst ↔
      n ∈ yi.map Prod.fst ∨ ∃ d ∈ ds, names d.who = n) := by
  induction ds with
  | nil =>
    intro yi yi' h
    have hi : yi = yi' := (Except.ok.injEq _ _).mp h
    subst hi
    simp
  | cons d ds ih =>
    intro yi yi' h
    simp only [collectDetails] at h
    cases hd : collectDetail names yi d with
    | error e =>
      rw [hd] at h
      exact Except.noConfusion (h : (Except.error e : Except String _) = .ok yi')
    | ok yi₁ =>
      rw [hd] at h
      have hc : collectDetails names yi₁ ds = .ok yi' := h
      obtain ⟨h1, h2⟩ := collectDetail_char names yi yi₁ d hd
      obtain ⟨h3, h4⟩ := ih yi₁ yi' hc
      constructor
      · intro n t
        rw [h3 n t, h1 n t]
        simp [Nat.add_assoc]
      · intro n
        rw [h4 n, h2 n]
        constructor
        · rintro ((hm | hm) | ⟨dd, hdm, hdc⟩)
          · exact Or.inl hm
          · exact Or.inr ⟨d, List.mem_cons_self d ds, hm⟩
          · exact Or.inr ⟨dd, List.mem_cons_of_mem _ hdm, hdc⟩
        · rintro (hm | ⟨dd, hdm, hdc⟩)
          · exact Or.inl (Or.inl hm)
          · rcases List.mem_cons.mp hdm with rfl | hdm2
            · exact Or.inl (Or.inr hdc)
            · exact Or.inr ⟨dd, hdm2, hdc⟩

theorem collectKyokus_char (names : Fin 4 → Name) (kys : List Kyoku) :
    ∀ (yi yi' : List (Name × List (Name × Nat))),
    collectKyokus names yi kys = .ok yi' →
    (∀ n t, tallyOf yi' n t =
      tallyOf yi n t + (kys.map (fun ky => kyokuContrib names ky n t)).sum) ∧
    (∀ n, n ∈ yi'.map Prod.fst ↔
      n ∈ yi.map Prod.fst ∨ ∃ ky ∈ kys, (match ky.endStatus with
        | .hora ds => ∃ d ∈ ds, names d.who = n
        | .ryukyoku => False)) := by
  induction kys with
  | nil =>
    intro yi yi' h
    have hi : yi = yi' := (Except.ok.injEq _ _).mp h
    subst hi
    simp
  | cons ky kys ih =>
    intro yi yi' h
    simp only [collectKyokus] at h
    cases hke : ky.endStatus with
    | ryukyoku =>
      rw [hke] at h
      have hc : collectKyokus names yi kys = .ok yi' := h
      obtain ⟨h3, h4⟩ := ih yi yi' hc
      constructor
      · intro n t
        rw [h3 n t]
        simp [kyokuContrib, hke]
      · intro n
        rw [h4 n]
        constructor
        · rintro (hm | ⟨kk, hkm, hkc⟩)
          · exact Or.inl hm
          · exact Or.inr ⟨kk, List.mem_cons_of_mem _ hkm, hkc⟩
        · rintro (hm | ⟨kk, hkm, hkc⟩)
          · exact Or.inl hm
          · rcases List.mem_cons.mp hkm with rfl | hkm2
            · rw [hke] at hkc
              exact absurd hkc (by simp)
            · exact Or.inr ⟨kk, hkm2, hkc⟩
    | hora ds =>
      rw [hke] at h
      have h5 : (match collectDetails names yi ds with
          | Except.error e => Except.error e
          | Except.ok yi2 => collectKyokus names yi2 kys) = Except.ok yi' := h
      cases hd : collectDetails names yi ds with
      | error e =>
        rw [hd] at h5
        exact Except.noConfusion (h5 : (Except.error e : Except String _) = .ok yi')
      | ok yi₁ =>
        rw [hd] at h5
        have hc : collectKyokus names yi₁ kys = .ok yi' := h5
        obtain ⟨h1, h2⟩ := collectDetails_char names ds yi yi₁ hd
        obtain ⟨h3, h4⟩ := ih yi₁ yi' hc
        constructor
        · intro n t
          rw [h3 n t, h1 n t]
          simp [kyokuContrib, hke, Nat.add_assoc]
        · intro n
          rw [h4 n, h2 n]
          constructor
          · rintro ((hm | hm) | ⟨kk, hkm, hkc⟩)
            · exact Or.inl hm
            · exact Or.inr ⟨ky, List.mem_cons_self ky kys, by rw [hke]; exact hm⟩
            · exact Or.inr ⟨kk, List.mem_cons_of_mem _ hkm, hkc⟩
          · rintro (hm | ⟨kk, hkm, hkc⟩)
            · exact Or.inl (Or.inl hm)
            · rcases List.mem_cons.mp hkm with rfl | hkm2
              · rw [hke] at hkc
                exact Or.inl (Or.inr hkc)
              · exact Or.inr ⟨kk, hkm2, hkc⟩

/-- The duration the log resolves to when its metadata parses (none when the
computation would fail; only used under success hypotheses). -/
def durD (lg : GameLog) : Option Nat :=
  match computeDuration lg.mjshead with
  | .ok dr => dr
  | .error _ => none

/-- One log's whole increment to a player's accumulator: the summed seat
increments over the four seats bearing that player's name. -/
def logInfoContrib {S : Type} (sim : Sim S) (lg : GameLog) (name : Name) : PlayerInfo :=
  seatsContrib sim lg (durD lg) (List.finRange 4) name

theorem hasActor_iff (lg : GameLog) (n : Name) :
    hasActor lg n = true ↔ ∃ ky ∈ lg.kyokus, (match ky.endStatus with
      | .hora ds => ∃ d ∈ ds, lg.names d.who = n
      | .ryukyoku => False) := by
  simp only [hasActor, List.any_eq_true]
  constructor
  · rintro ⟨ky, hky, hc⟩
    refine ⟨ky, hky, ?_⟩
    cases hke : ky.endStatus with
    | hora ds =>
      rw [hke] at hc
      simpa using hc
    | ryukyoku =>
      rw [hke] at hc
      exact absurd hc (by simp)
  · rintro ⟨ky, hky, hc⟩
    refine ⟨ky, hky, ?_⟩
    cases hke : ky.endStatus with
    | hora ds =>
      rw [hke] at hc
      simpa using hc
    | ryukyoku =>
      rw [hke] at hc
      exact absurd hc (by simp)

theorem processLog_char {S : Type} (sim : Sim S) (lg : GameLog)
    (pi pi' : List (Name × PlayerInfo)) (yi yi' : List (Name × List (Name × Nat)))
    (h : processLog sim lg pi yi = .ok (pi', yi')) :
    (∀ name, alookup pi' name =
      if name ∈ pi.map Prod.fst ∨ ∃ pid, lg.names pid = name
      then some (((alookup pi name).getD pzero).add (logInfoContrib sim lg name))
      else none) ∧
    (∀ n t, tallyOf yi' n t = tallyOf yi n t + logYakuContrib lg n t) ∧
    (∀ n, n ∈ yi'.map Prod.fst ↔ n ∈ yi.map Prod.fst ∨ hasActor lg n = true) := by
  simp only [processLog] at h
  cases hdur : computeDuration lg.mjshead with
  | error e =>
    rw [hdur] at h
    exact Except.noConfusion (h : (Except.error e : Except String _) = .ok (pi', yi'))
  | ok dur =>
    rw [hdur] at h
    have h2 : (match collectKyokus lg.names yi lg.kyokus with
        | Except.error e => Except.error e
        | Except.ok yi2 =>
          match runSeats sim lg dur pi (List.finRange 4) with
          | Except.error e => Except.error e
          | Except.ok pi2 => Except.ok (pi2, yi2)) = Except.ok (pi', yi') := h
    cases hcol : collectKyokus lg.names yi lg.kyokus with
    | error e =>
      rw [hcol] at h2
      exact Except.noConfusion (h2 : (Except.error e : Except String _) = .ok (pi', yi'))
    | ok yi₁ =>
      rw [hcol] at h2
      cases hrs : runSeats sim lg dur pi (List.finRange 4) with
      | error e =>
        rw [hrs] at h2
        exact Except.noConfusion (h2 : (Except.error e : Except String _) = .ok (pi', yi'))
      | ok pi₁ =>
        rw [hrs] at h2
        have h3 : pi₁ = pi' ∧ yi₁ = yi' := by
          have h4 : (pi₁, yi₁) = (pi', yi') := (Except.ok.injEq _ _).mp h2
          exact ⟨congrArg Prod.fst h4, congrArg Prod.snd h4⟩
        obtain ⟨rfl, rfl⟩ := h3
        have hdd : durD lg = dur := by simp [durD, hdur]
        refine ⟨fun name => ?_, ?_, ?_⟩
        · have := runSeats_lookup sim lg dur (List.finRange 4) pi pi₁ hrs name
          rw [this]
          have hex : (∃ pid ∈ List.finRange 4, lg.names pid = name) ↔
              ∃ pid, lg.names pid = name := by
            constructor
            · rintro ⟨pid, -, hp⟩
              exact ⟨pid, hp⟩
            · rintro ⟨pid, hp⟩
              exact ⟨pid, List.mem_finRange pid, hp⟩
          simp only [hex, logInfoContrib, hdd]
        · exact (collectKyokus_char lg.names lg.kyokus yi yi₁ hcol).1
        · intro n
          rw [(collectKyokus_char lg.names lg.kyokus yi yi₁ hcol).2 n, hasActor_iff]

theorem runLogs_char {S : Type} (sim : Sim S) : ∀ (logs : List GameLog)
    (pi pi' : List (Name × PlayerInfo)) (yi yi' : List (Name × List (Name × Nat))),
    runLogs sim pi yi logs = .ok (pi', yi') →
    (∀ name, alookup pi' name =
      if name ∈ pi.map Prod.fst ∨ ∃ lg ∈ logs, ∃ pid, lg.names pid = name
      then some (((alookup pi name).getD pzero).add
        (psum (logs.map (fun lg => logInfoContrib sim lg name))))
      else none) ∧
    (∀ n t, tallyOf yi' n t =
      tallyOf yi n t + (logs.map (fun lg => logYakuContrib lg n t)).sum) ∧
    (∀ n, n ∈ yi'.map Prod.fst ↔
      n ∈ yi.map Prod.fst ∨ ∃ lg ∈ logs, hasActor lg n = true) := by
  intro logs
  induction logs with
  | nil =>
    intro pi pi' yi yi' h
    have h3 : pi = pi' ∧ yi = yi' := by
      have h4 : (pi, yi) = (pi', yi') := (Except.ok.injEq _ _).mp h
      exact ⟨congrArg Prod.fst h4, congrArg Prod.snd h4⟩
    obtain ⟨rfl, rfl⟩ := h3
    refine ⟨fun name => ?_, by simp, by simp⟩
    simp only [List.not_mem_nil, false_and, exists_false, or_false, List.map_nil,
      psum, PlayerInfo.add_pzero]
    cases hl : alookup pi name with
    | none =>
      rw [if_neg]
      exact (alookup_eq_none pi name).mp hl
    | some v =>
      have hm : name ∈ pi.map Prod.fst := by
        rw [← alookup_isSome]
        simp [hl]
      rw [if_pos hm]
      simp
  | cons lg logs ih =>
    intro pi pi' yi yi' h
    simp only [runLogs] at h
    cases hp : processLog sim lg pi yi with
    | error e =>
      rw [hp] at h
      exact Except.noConfusion (h : (Except.error e : Except String _) = .ok (pi', yi'))
    | ok acc =>
      obtain ⟨pi₁, yi₁⟩ := acc
      rw [hp] at h
      have hc : runLogs sim pi₁ yi₁ logs = .ok (pi', yi') := h
      obtain ⟨h1, h2, h3⟩ := processLog_char sim lg pi pi₁ yi yi₁ hp
      obtain ⟨h4, h5, h6⟩ := ih pi₁ pi' yi₁ yi' hc
      refine ⟨fun name => ?_, fun n t => ?_, fun n => ?_⟩
      · rw [h4 name]
        by_cases hc0 : name ∈ pi.map Prod.fst ∨ ∃ pid, lg.names pid = name
        · have hl1 : alookup pi₁ name =
              some (((alookup pi name).getD pzero).add (logInfoContrib sim lg name)) := by
            rw [h1 name, if_pos hc0]
          have hm1 : name ∈ pi₁.map Prod.fst := by
            rw [← alookup_isSome]
            simp [hl1]
          have hcond : name ∈ pi.map Prod.fst ∨
              ∃ lg2 ∈ lg :: logs, ∃ pid, lg2.names pid = name := by
            rcases hc0 with hm | hseat
            · exact Or.inl hm
            · exact Or.inr ⟨lg, List.mem_cons_self lg logs, hseat⟩
          rw [if_pos (Or.inl hm1), if_pos hcond, hl1]
          simp [psum, PlayerInfo.add_assoc]
        · push_neg at hc0
          have hl1 : alookup pi₁ name = none := by
            rw [h1 name, if_neg]
            push_neg
            exact hc0
          have hm1 : name ∉ pi₁.map Prod.fst := (alookup_eq_none pi₁ name).mp hl1
          have hzc : logInfoContrib sim lg name = pzero := by
            have hfe : (List.finRange 4).filter (fun pid => lg.names pid = name) = [] := by
              rw [List.filter_eq_nil_iff]
              intro pid hmem
              simpa using hc0.2 pid
            simp [logInfoContrib, seatsContrib, hfe, psum]
          have hl0 : alookup pi name = none :=
            (alookup_eq_none pi name).mpr hc0.1
          rw [hl1, hl0]
          simp only [Option.getD_none]
          have hiff : (name ∈ pi₁.map Prod.fst ∨ ∃ lg2 ∈ logs, ∃ pid, lg2.names pid = name) ↔
              (name ∈ pi.map Prod.fst ∨
                ∃ lg2 ∈ lg :: logs, ∃ pid, lg2.names pid = name) := by
            constructor
            · rintro (hm | ⟨lg2, hm2, hp2⟩)
              · exact absurd hm hm1
              · exact Or.inr ⟨lg2, List.mem_cons_of_mem _ hm2, hp2⟩
            · rintro (hm | ⟨lg2, hm2, hp2⟩)
              · exact absurd hm hc0.1
              · rcases List.mem_cons.mp hm2 with rfl | hm3
                · obtain ⟨pid, hpid⟩ := hp2
                  exact absurd hpid (hc0.2 pid)
                · exact Or.inr ⟨lg2, hm3, hp2⟩
          by_cases hrest : name ∈ pi₁.map Prod.fst ∨ ∃ lg2 ∈ logs, ∃ pid, lg2.names pid = name
          · rw [if_pos hrest, if_pos (hiff.mp hrest)]
            simp [psum, hzc, PlayerInfo.pzero_add]
          · rw [if_neg hrest, if_neg (fun hx => hrest (hiff.mpr hx))]
      · rw [h5 n t, h2 n t]
        simp [Nat.add_assoc]
      · rw [h6 n, h3 n]
        constructor
        · rintro ((hm | hm) | ⟨lg2, hm2, hp2⟩)
          · exact Or.inl hm
          · exact Or.inr ⟨lg, List.mem_cons_self lg logs, hm⟩
          · exact Or.inr ⟨lg2, List.mem_cons_of_mem _ hm2, hp2⟩
        · rintro (hm | ⟨lg2, hm2, hp2⟩)
          · exact Or.inl (Or.inl hm)
          · rcases List.mem_cons.mp hm2 with rfl | hm3
            · exact Or.inl (Or.inr hp2)
            · exact Or.inr ⟨lg2, hm3, hp2⟩

/-! ## Concrete fixtures: a trivial external simulator and small logs, used
by the concrete witnesses and counterexamples. -/

/-- A fixed view for the trivial simulator: nothing waited on, closed hand,
no riichi, not dealer, not ready. -/
def trivView : StateView where
  shanten := 0
  realTimeShanten := 1
  waits := fun _ => false
  tilesSeen := fun _ => 0
  kawaLastIsRiichi := fun _ => false
  isMenzen := true
  honba := 0
  kyotaku := 0
  isOya := false
  riichiDeclared := fun _ => false
  fuuroEmpty := fun _ => true
  tehai := fun _ => 0
  canAct := false
  selfRiichiDeclared := false
  selfRiichiAccepted := false
  rel := fun i => i
  agariRon := fun _ => none

/-- A trivial external simulator whose updates always succeed. -/
def trivSim : Sim Unit where
  init := fun _ => ()
  update := fun _ _ => .ok ()
  view := fun _ => trivView
  danger := fun _ _ _ => 0
  next := fun t => t

/-- A two-state simulator (pre-update `false`, post-update `true`) whose
danger query answers 1 on the post-update state: distinguishes when the
danger oracle is consulted. -/
def flagSimA : Sim Bool where
  init := fun _ => false
  update := fun _ _ => .ok true
  view := fun _ => trivView
  danger := fun s => if s then (fun _ _ => 1) else (fun _ _ => 0)
  next := fun t => t

/-- Like `flagSimA` but answering 2 on the post-update state: agrees with
`flagSimA` exactly on the pre-update state. -/
def flagSimB : Sim Bool where
  init := fun _ => false
  update := fun _ _ => .ok true
  view := fun _ => trivView
  danger := fun s => if s then (fun _ _ => 2) else (fun _ _ => 0)
  next := fun t => t

def nmA : Name := "A".toList

def nmB : Name := "B".toList

def nmC : Name := "C".toList

def nmD : Name := "D".toList

def nmAsh : Name := "ashlen".toList

/-- A log whose players A-D play 101 hands with no winner: all four are
retained by the report filter but none has a yaku tally entry. -/
def cexLog1 : GameLog where
  names := ![nmA, nmB, nmC, nmD]
  kyokus := []
  mjshead := none
  events := List.replicate 101 .startKyoku

/-- A log where retained player A records yaku X once and the denylisted
(non-retained) player "ashlen" records yaku Y twice. -/
def cexLog2 : GameLog where
  names := ![nmA, nmAsh, nmC, nmD]
  kyokus := [⟨.hora [⟨0, ["X(1)".toList]⟩, ⟨1, ["Y(1)".toList]⟩, ⟨1, ["Y(1)".toList]⟩]⟩]
  mjshead := none
  events := List.replicate 101 .startKyoku

/-- A small log with one hand won by seat 0 against seat 1, all seat deltas
8000, no repeat sticks, used by witnesses. -/
def wLog : GameLog where
  names := ![nmA, nmB, nmC, nmD]
  kyokus := [⟨.hora [⟨0, ["X(1)".toList]⟩]⟩]
  mjshead := some ⟨some 100, some 160⟩
  events := [.startKyoku, .hora 0 1 (some (fun _ => 8000)) none, .endKyoku]

def wRun : Except String (List (Name × PlayerInfo) × List (Name × List (Name × Nat))) :=
  runAll trivSim [wLog]

def wPi : List (Name × PlayerInfo) :=
  match wRun with
  | .ok p => p.1
  | .error _ => []

def wYi : List (Name × List (Name × Nat)) :=
  match wRun with
  | .ok p => p.2
  | .error _ => []

/-! ## Extraction of the win-event branches -/

/-- The step on a win by the replayed seat, in closed form. -/
theorem stepEvent_horaSelf {S : Type} (sim : Sim S) (pid tgt : Fin 4) (dr : Bool)
    (ds : Fin 4 → Int) (um : Option (List (Fin 34))) (st st' : S)
    (info info' : PlayerInfo)
    (h : stepEvent sim pid dr (.hora pid tgt (some ds) um) (st, info) = .ok (st', info')) :
    sim.update st (.hora pid tgt (some ds) um) = .ok st' ∧
    info' = { info with
      action_count := info.action_count +
        (if dr && (sim.view st').canAct then 1 else 0),
      agari_count := info.agari_count + 1,
      total_agari_score := info.total_agari_score + intToU32 (ds pid),
      riichi_agari_count := info.riichi_agari_count +
        (if (sim.view st').isMenzen && (sim.view st').selfRiichiDeclared then 1 else 0),
      dama_agari_count := info.dama_agari_count +
        (if (sim.view st').isMenzen && !(sim.view st').selfRiichiDeclared then 1 else 0),
      open_agari_count := info.open_agari_count +
        (if !(sim.view st').isMenzen then 1 else 0),
      ura_count := info.ura_count + uraAdd sim.next (sim.view st') um,
      yakuman_count := info.yakuman_count +
        (if normalizedSelfDelta (ds pid) (sim.view st').honba (sim.view st').kyotaku
            (sim.view st').isOya ≥ 32000 then 1 else 0),
      sanbaiman_count := info.sanbaiman_count +
        (if normalizedSelfDelta (ds pid) (sim.view st').honba (sim.view st').kyotaku
            (sim.view st').isOya ≥ 24000 then 1 else 0),
      baiman_count := info.baiman_count +
        (if normalizedSelfDelta (ds pid) (sim.view st').honba (sim.view st').kyotaku
            (sim.view st').isOya ≥ 16000 then 1 else 0),
      total_agari_waits := info.total_agari_waits + (1 + waitCopies (sim.view st')) } := by
  cases hu : sim.update st (Event.hora pid tgt (some ds) um) with
  | error e =>
    rw [stepEvent] at h
    simp only [hu] at h
    exact Except.noConfusion h
  | ok st₂ =>
    rw [stepEvent] at h
    simp only [hu, if_true] at h
    simp only [Except.ok.injEq, Prod.mk.injEq] at h
    obtain ⟨rfl, rfl⟩ := h
    exact ⟨rfl, rfl⟩

/-- The step on a win dealt into by the replayed seat, in closed form. -/
theorem stepEvent_horaTarget {S : Type} (sim : Sim S) (pid act : Fin 4) (dr : Bool)
    (ds : Fin 4 → Int) (um : Option (List (Fin 34))) (st st' : S)
    (info info' : PlayerInfo) (hact : act ≠ pid)
    (h : stepEvent sim pid dr (.hora act pid (some ds) um) (st, info) = .ok (st', info')) :
    sim.update st (.hora act pid (some ds) um) = .ok st' ∧
    info' = { info with
      action_count := info.action_count +
        (if dr && (sim.view st').canAct then 1 else 0),
      dealin_count := info.dealin_count + 1,
      total_dealin_score := info.total_dealin_score + intToU32 (-(ds pid)),
      ippatsu_dealin_count := info.ippatsu_dealin_count +
        (if (sim.view st').kawaLastIsRiichi act && !(sim.view st').selfRiichiAccepted
          then 1 else 0),
      dama_dealin_count := info.dama_dealin_count +
        (if !(sim.view st').riichiDeclared ((sim.view st').rel act) &&
            (sim.view st').fuuroEmpty ((sim.view st').rel act) then 1 else 0),
      dama_mangan_dealin_count := info.dama_mangan_dealin_count +
        (if (!(sim.view st').riichiDeclared ((sim.view st').rel act) &&
            (sim.view st').fuuroEmpty ((sim.view st').rel act)) &&
            decide (normalizedSelfDelta (ds pid) (sim.view st').honba
              (sim.view st').kyotaku (sim.view st').isOya ≤ -8000) then 1 else 0) } := by
  cases hu : sim.update st (Event.hora act pid (some ds) um) with
  | error e =>
    rw [stepEvent] at h
    simp only [hu] at h
    exact Except.noConfusion h
  | ok st₂ =>
    rw [stepEvent] at h
    simp only [hu] at h
    rw [if_neg hact] at h
    simp only [if_true] at h
    simp only [Except.ok.injEq, Prod.mk.injEq] at h
    obtain ⟨rfl, rfl⟩ := h
    exact ⟨rfl, rfl⟩

/-- The invariants of `stepDelta_props` hold of every seat's total per-log
increment. -/
theorem seatDeltaD_props {S : Type} (sim : Sim S) (lg : GameLog) (dur : Option Nat)
    (pid : Fin 4) :
    (seatDeltaD sim lg dur pid).riichi_agari_count +
      (seatDeltaD sim lg dur pid).dama_agari_count +
      (seatDeltaD sim lg dur pid).open_agari_count =
      (seatDeltaD sim lg dur pid).agari_count ∧
    (seatDeltaD sim lg dur pid).yakuman_count ≤ (seatDeltaD sim lg dur pid).sanbaiman_count ∧
    (seatDeltaD sim lg dur pid).sanbaiman_count ≤ (seatDeltaD sim lg dur pid).baiman_count ∧
    (seatDeltaD sim lg dur pid).baiman_count ≤ (seatDeltaD sim lg dur pid).agari_count := by
  unfold seatDeltaD seatDelta
  cases hr : replayEvents sim pid dur.isSome (sim.init pid) pzero lg.events with
  | error e => simp [Except.map, pzero]
  | ok p =>
    obtain ⟨st2, δ⟩ := p
    obtain ⟨h1, h2, h3, h4, -, -⟩ := replayDelta_props sim pid dur.isSome lg.events
      (sim.init pid) st2 δ hr
    have hdz : ∀ x, (durationInfo dur).add x = { x with
        seconds_played := (durationInfo dur).seconds_played + x.seconds_played } := by
      intro x
      cases dur <;>
        · cases x
          simp [durationInfo, PlayerInfo.add, pzero]
    simp only [Except.map, hdz]
    exact ⟨h1, h2, h3, h4⟩

/-- The invariants are closed under summation. -/
theorem psum_props (l : List PlayerInfo)
    (h : ∀ c ∈ l, c.riichi_agari_count + c.dama_agari_count + c.open_agari_count =
        c.agari_count ∧
      c.yakuman_count ≤ c.sanbaiman_count ∧ c.sanbaiman_count ≤ c.baiman_count ∧
      c.baiman_count ≤ c.agari_count) :
    (psum l).riichi_agari_count + (psum l).dama_agari_count + (psum l).open_agari_count =
      (psum l).agari_count ∧
    (psum l).yakuman_count ≤ (psum l).sanbaiman_count ∧
    (psum l).sanbaiman_count ≤ (psum l).baiman_count ∧
    (psum l).baiman_count ≤ (psum l).agari_count := by
  induction l with
  | nil => simp [psum, pzero]
  | cons c l ih =>
    obtain ⟨h1, h2, h3, h4⟩ := h c (List.mem_cons_self c l)
    obtain ⟨h5, h6, h7, h8⟩ := ih (fun x hx => h x (List.mem_cons_of_mem _ hx))
    simp only [psum, PlayerInfo.add]
    refine ⟨by omega, by omega, by omega, by omega⟩

/-- Every entry of the final accumulator of a run satisfies the invariants. -/
theorem runAll_entry_props {S : Type} (sim : Sim S) (logs : List GameLog)
    (pi : List (Name × PlayerInfo)) (yi : List (Name × List (Name × Nat)))
    (h : runAll sim logs = .ok (pi, yi)) (name : Name) :
    ((alookup pi name).getD pzero).riichi_agari_count +
      ((alookup pi name).getD pzero).dama_agari_count +
      ((alookup pi name).getD pzero).open_agari_count =
      ((alookup pi name).getD pzero).agari_count ∧
    ((alookup pi name).getD pzero).yakuman_count ≤
      ((alookup pi name).getD pzero).sanbaiman_count ∧
    ((alookup pi name).getD pzero).sanbaiman_count ≤
      ((alookup pi name).getD pzero).baiman_count ∧
    ((alookup pi name).getD pzero).baiman_count ≤
      ((alookup pi name).getD pzero).agari_count := by
  obtain ⟨h1, -, -⟩ := runLogs_char sim logs [] pi [] yi h
  rw [h1 name]
  by_cases hcond : name ∈ ([] : List (Name × PlayerInfo)).map Prod.fst ∨
      ∃ lg ∈ logs, ∃ pid, lg.names pid = name
  · rw [if_pos hcond]
    simp only [alookup, Option.getD_none, Option.getD_some, PlayerInfo.pzero_add]
    apply psum_props
    intro c hc
    rw [List.mem_map] at hc
    obtain ⟨lg, -, rfl⟩ := hc
    apply psum_props
    intro c2 hc2
    rw [List.mem_map] at hc2
    obtain ⟨pid, -, rfl⟩ := hc2
    exact seatDeltaD_props sim lg (durD lg) pid
  · rw [if_neg hcond]
    simp [pzero]

/-- The normalized self-delta as §4.2 of the spec words it: this seat's raw
delta minus 300 times the repeat-hand (honba) count minus 1000 times the
carried stake-stick (kyotaku) count, scaled by 2/3 in truncating integer
arithmetic when this seat is dealer. -/
def specNormalizedDelta (rawDelta : Int) (honba kyotaku : Nat) (isDealer : Bool) : Int :=
  let x := rawDelta - 300 * (honba : Int) - 1000 * (kyotaku : Int)
  if isDealer then Int.tdiv (x * 2) 3 else x

/-- C3: for every player at every point of a run, riichi_agari_count +
dama_agari_count + open_agari_count = agari_count: each step preserves the
equation, a win by self increments agari_count and exactly one of the three
classification counters (riichi if menzen and riichi declared, dama if
menzen without riichi, open otherwise), and the equation holds of every
player's final accumulator of every successful run. -/
theorem claim_C3 :
    (∀ (S : Type) (sim : Sim S) (pid : Fin 4) (d : Bool) (ev : Event) (st st' : S)
        (info info' : PlayerInfo),
      stepEvent sim pid d ev (st, info) = .ok (st', info') →
      info.riichi_agari_count + info.dama_agari_count + info.open_agari_count =
        info.agari_count →
      info'.riichi_agari_count + info'.dama_agari_count + info'.open_agari_count =
        info'.agari_count) ∧
    (∀ (S : Type) (sim : Sim S) (pid tgt : Fin 4) (d : Bool) (ds : Fin 4 → Int)
        (um : Option (List (Fin 34))) (st st' : S) (info info' : PlayerInfo),
      stepEvent sim pid d (.hora pid tgt (some ds) um) (st, info) = .ok (st', info') →
      info'.agari_count = info.agari_count + 1 ∧
      info'.riichi_agari_count = info.riichi_agari_count +
        (if (sim.view st').isMenzen && (sim.view st').selfRiichiDeclared then 1 else 0) ∧
      info'.dama_agari_count = info.dama_agari_count +
        (if (sim.view st').isMenzen && !(sim.view st').selfRiichiDeclared then 1 else 0) ∧
      info'.open_agari_count = info.open_agari_count +
        (if !(sim.view st').isMenzen then 1 else 0) ∧
      (if (sim.view st').isMenzen && (sim.view st').selfRiichiDeclared then 1 else 0) +
        (if (sim.view st').isMenzen && !(sim.view st').selfRiichiDeclared then 1 else 0) +
        (if !(sim.view st').isMenzen then (1 : Nat) else 0) = 1) ∧
    (∀ (S : Type) (sim : Sim S) (logs : List GameLog) (pi : List (Name × PlayerInfo))
        (yi : List (Name × List (Name × Nat))) (name : Name),
      runAll sim logs = .ok (pi, yi) →
      ((alookup pi name).getD pzero).riichi_agari_count +
        ((alookup pi name).getD pzero).dama_agari_count +
        ((alookup pi name).getD pzero).open_agari_count =
        ((alookup pi name).getD pzero).agari_count) := by
  refine ⟨?_, ?_, ?_⟩
  · intro S sim pid d ev st st' info info' h hinv
    rw [stepEvent_add] at h
    cases hz : stepEvent sim pid d ev (st, pzero) with
    | error e =>
      rw [hz] at h
      simp only [Except.map] at h
      exact Except.noConfusion h
    | ok p =>
      obtain ⟨st2, δ⟩ := p
      rw [hz] at h
      simp only [Except.map, Except.ok.injEq, Prod.mk.injEq] at h
      obtain ⟨-, rfl⟩ := h
      obtain ⟨h1, -, -, -, -, -⟩ := stepDelta_props sim pid d ev st st2 δ hz
      simp only [PlayerInfo.add]
      omega
  · intro S sim pid tgt d ds um st st' info info' h
    obtain ⟨-, rfl⟩ := stepEvent_horaSelf sim pid tgt d ds um st st' info info' h
    refine ⟨rfl, rfl, rfl, rfl, ?_⟩
    cases hm : (sim.view st').isMenzen <;>
      cases hs : (sim.view st').selfRiichiDeclared <;> simp
  · intro S sim logs pi yi name h
    exact (runAll_entry_props sim logs pi yi h name).1

theorem claim_C3_witness :
    ((alookup wPi nmA).getD pzero).riichi_agari_count +
      ((alookup wPi nmA).getD pzero).dama_agari_count +
      ((alookup wPi nmA).getD pzero).open_agari_count =
      ((alookup wPi nmA).getD pzero).agari_count :=
  claim_C3.2.2 Unit trivSim [wLog] wPi wYi nmA (by rfl)

/-- C4: the three score-tier counters are cumulative: on a win by self each
counter whose threshold the normalized delta meets is incremented (≥32000
yakuman, ≥24000 sanbaiman, ≥16000 baiman), so for every player at the end of
every successful run yakuman_count ≤ sanbaiman_count ≤ baiman_count ≤
agari_count. -/
theorem claim_C4 :
    (∀ (S : Type) (sim : Sim S) (pid tgt : Fin 4) (d : Bool) (ds : Fin 4 → Int)
        (um : Option (List (Fin 34))) (st st' : S) (info info' : PlayerInfo),
      stepEvent sim pid d (.hora pid tgt (some ds) um) (st, info) = .ok (st', info') →
      info'.yakuman_count = info.yakuman_count +
        (if normalizedSelfDelta (ds pid) (sim.view st').honba (sim.view st').kyotaku
            (sim.view st').isOya ≥ 32000 then 1 else 0) ∧
      info'.sanbaiman_count = info.sanbaiman_count +
        (if normalizedSelfDelta (ds pid) (sim.view st').honba (sim.view st').kyotaku
            (sim.view st').isOya ≥ 24000 then 1 else 0) ∧
      info'.baiman_count = info.baiman_count +
        (if normalizedSelfDelta (ds pid) (sim.view st').honba (sim.view st').kyotaku
            (sim.view st').isOya ≥ 16000 then 1 else 0)) ∧
    (∀ (S : Type) (sim : Sim S) (logs : List GameLog) (pi : List (Name × PlayerInfo))
        (yi : List (Name × List (Name × Nat))) (name : Name),
      runAll sim logs = .ok (pi, yi) →
      ((alookup pi name).getD pzero).yakuman_count ≤
        ((alookup pi name).getD pzero).sanbaiman_count ∧
      ((alookup pi name).getD pzero).sanbaiman_count ≤
        ((alookup pi name).getD pzero).baiman_count ∧
      ((alookup pi name).getD pzero).baiman_count ≤
        ((alookup pi name).getD pzero).agari_count) := by
  refine ⟨?_, ?_⟩
  · intro S sim pid tgt d ds um st st' info info' h
    obtain ⟨-, rfl⟩ := stepEvent_horaSelf sim pid tgt d ds um st st' info info' h
    exact ⟨rfl, rfl, rfl⟩
  · intro S sim logs pi yi name h
    exact (runAll_entry_props sim logs pi yi h name).2

theorem claim_C4_witness :
    ((alookup wPi nmA).getD pzero).yakuman_count ≤
      ((alookup wPi nmA).getD pzero).sanbaiman_count ∧
    ((alookup wPi nmA).getD pzero).sanbaiman_count ≤
      ((alookup wPi nmA).getD pzero).baiman_count ∧
    ((alookup wPi nmA).getD pzero).baiman_count ≤
      ((alookup wPi nmA).getD pzero).agari_count :=
  claim_C4.2 Unit trivSim [wLog] wPi wYi nmA (by rfl)

/-- C5: the normalized self-delta the code computes at a win equals the
spec's formula (raw delta − 300·honba − 1000·kyotaku, ×2/3 in truncating
integer arithmetic when dealer, read off the simulated state after the win
event), and that exact value is the one gating the three tier counters on a
self win and the concealed-large (dama mangan) dealt-in counter. -/
theorem claim_C5 :
    (∀ (dl : Int) (hb kt : Nat) (o : Bool),
      normalizedSelfDelta dl hb kt o = specNormalizedDelta dl hb kt o) ∧
    (∀ (S : Type) (sim : Sim S) (pid tgt : Fin 4) (d : Bool) (ds : Fin 4 → Int)
        (um : Option (List (Fin 34))) (st st' : S) (info info' : PlayerInfo),
      stepEvent sim pid d (.hora pid tgt (some ds) um) (st, info) = .ok (st', info') →
      info'.yakuman_count = info.yakuman_count +
        (if specNormalizedDelta (ds pid) (sim.view st').honba (sim.view st').kyotaku
            (sim.view st').isOya ≥ 32000 then 1 else 0) ∧
      info'.sanbaiman_count = info.sanbaiman_count +
        (if specNormalizedDelta (ds pid) (sim.view st').honba (sim.view st').kyotaku
            (sim.view st').isOya ≥ 24000 then 1 else 0) ∧
      info'.baiman_count = info.baiman_count +
        (if specNormalizedDelta (ds pid) (sim.view st').honba (sim.view st').kyotaku
            (sim.view st').isOya ≥ 16000 then 1 else 0)) ∧
    (∀ (S : Type) (sim : Sim S) (pid act : Fin 4) (d : Bool) (ds : Fin 4 → Int)
        (um : Option (List (Fin 34))) (st st' : S) (info info' : PlayerInfo),
      act ≠ pid →
      stepEvent sim pid d (.hora act pid (some ds) um) (st, info) = .ok (st', info') →
      info'.dama_mangan_dealin_count = info.dama_mangan_dealin_count +
        (if (!(sim.view st').riichiDeclared ((sim.view st').rel act) &&
            (sim.view st').fuuroEmpty ((sim.view st').rel act)) &&
            decide (specNormalizedDelta (ds pid) (sim.view st').honba
              (sim.view st').kyotaku (sim.view st').isOya ≤ -8000) then 1 else 0)) := by
  have heq : ∀ (dl : Int) (hb kt : Nat) (o : Bool),
      normalizedSelfDelta dl hb kt o = specNormalizedDelta dl hb kt o := by
    intro dl hb kt o
    simp only [normalizedSelfDelta, specNormalizedDelta]
    cases o with
    | false =>
      simp only [Bool.false_eq_true, if_false]
      omega
    | true =>
      simp only [if_true]
      congr 1
      omega
  refine ⟨heq, ?_, ?_⟩
  · intro S sim pid tgt d ds um st st' info info' h
    obtain ⟨-, rfl⟩ := stepEvent_horaSelf sim pid tgt d ds um st st' info info' h
    rw [← heq]
    exact ⟨rfl, rfl, rfl⟩
  · intro S sim pid act d ds um st st' info info' hact h
    obtain ⟨-, rfl⟩ := stepEvent_horaTarget sim pid act d ds um st st' info info' hact h
    rw [← heq]

def wStepInfo : PlayerInfo :=
  match stepEvent trivSim 0 false (.hora 0 1 (some (fun _ => 8000)) none) ((), pzero) with
  | .ok p => p.2
  | .error _ => pzero

theorem claim_C5_witness :
    normalizedSelfDelta 12000 1 1 true = specNormalizedDelta 12000 1 1 true ∧
    wStepInfo.yakuman_count = pzero.yakuman_count +
      (if specNormalizedDelta 8000 0 0 false ≥ 32000 then 1 else 0) :=
  ⟨claim_C5.1 12000 1 1 true,
    (claim_C5.2.1 Unit trivSim 0 1 false (fun _ => 8000) none () () pzero wStepInfo
      (by rfl)).1⟩

/-- C6: for a discard by the replayed player the opponent danger estimate is
queried from the simulated state strictly before the discard is applied:
two simulators whose danger oracles agree on the pre-update state produce
the same step on a self discard, whatever they answer elsewhere (first
conjunct); on any event that is not a self discard the danger oracle is
never consulted at all (second conjunct); and the dangerous-discard counter
compares the pre-update danger estimate at the discarded tile against the
post-update river state (third conjunct). -/
theorem claim_C6 :
    (∀ (S : Type) (i1 i2 : Fin 4 → S) (upd : S → Event → Except String S)
        (vw : S → StateView) (d1 d2 : S → Fin 4 → Fin 34 → Rat)
        (nx1 nx2 : Fin 34 → Fin 34) (pid : Fin 4) (hd : Bool) (pai : Fin 34)
        (st : S) (info : PlayerInfo),
      d1 st = d2 st →
      stepEvent ⟨i1, upd, vw, d1, nx1⟩ pid hd (.dahai pid pai) (st, info) =
        stepEvent ⟨i2, upd, vw, d2, nx2⟩ pid hd (.dahai pid pai) (st, info)) ∧
    (∀ (S : Type) (i1 i2 : Fin 4 → S) (upd : S → Event → Except String S)
        (vw : S → StateView) (d1 d2 : S → Fin 4 → Fin 34 → Rat)
        (nx : Fin 34 → Fin 34) (pid : Fin 4) (hd : Bool) (ev : Event)
        (st : S) (info : PlayerInfo),
      isSelfDahai pid ev = false →
      stepEvent ⟨i1, upd, vw, d1, nx⟩ pid hd ev (st, info) =
        stepEvent ⟨i2, upd, vw, d2, nx⟩ pid hd ev (st, info)) ∧
    (∀ (S : Type) (sim : Sim S) (pid : Fin 4) (hd : Bool) (pai : Fin 34)
        (st st' : S) (info info' : PlayerInfo),
      stepEvent sim pid hd (.dahai pid pai) (st, info) = .ok (st', info') →
      sim.update st (.dahai pid pai) = .ok st' ∧
      info'.ippatsu_brazen_count = info.ippatsu_brazen_count +
        (((List.finRange 4).drop 1).filter (fun i =>
          (sim.view st').kawaLastIsRiichi i && !(sim.view st').selfRiichiAccepted &&
            decide (0 < sim.danger st i pai))).length) := by
  refine ⟨?_, ?_, ?_⟩
  · intro S i1 i2 upd vw d1 d2 nx1 nx2 pid hd pai st info h12
    simp only [stepEvent, isSelfDahai, h12]
  · intro S i1 i2 upd vw d1 d2 nx pid hd ev st info hsd
    cases ev with
    | dahai a pai =>
      simp only [isSelfDahai, decide_eq_false_iff_not] at hsd
      simp only [stepEvent, isSelfDahai, hsd, decide_eq_true_eq, if_neg hsd, if_false]
    | startKyoku => simp only [stepEvent, isSelfDahai]
    | reachAccepted a => simp only [stepEvent, isSelfDahai]
    | hora a t ds um => simp only [stepEvent, isSelfDahai]
    | endKyoku => simp only [stepEvent, isSelfDahai]
    | other => simp only [stepEvent, isSelfDahai]
  · intro S sim pid hd pai st st' info info' h
    cases hu : sim.update st (Event.dahai pid pai) with
    | error e =>
      rw [stepEvent] at h
      simp only [hu] at h
      exact Except.noConfusion h
    | ok st₂ =>
      rw [stepEvent] at h
      simp only [hu, isSelfDahai, if_true] at h
      simp only [Except.ok.injEq, Prod.mk.injEq] at h
      obtain ⟨rfl, rfl⟩ := h
      refine ⟨rfl, ?_⟩
      simp

theorem claim_C6_witness :
    stepEvent flagSimA 0 false (.dahai 0 0) (false, pzero) =
      stepEvent flagSimB 0 false (.dahai 0 0) (false, pzero) :=
  claim_C6.1 Bool flagSimA.init flagSimB.init flagSimA.update flagSimA.view
    flagSimA.danger flagSimB.danger flagSimA.next flagSimB.next 0 false 0 false pzero rfl

/-! ## Canonical decimal counts and the collector claim -/

theorem toDigitsCore_head_ne_zero : ∀ (fuel n : Nat) (ds : List Char), 0 < n →
    n < 10 ^ fuel →
    ∃ c, (Nat.toDigitsCore 10 fuel n ds).head? = some c ∧ c ≠ '0' := by
  intro fuel
  induction fuel with
  | zero =>
    intro n ds h1 h2
    simp only [pow_zero] at h2
    omega
  | succ fuel ih =>
    intro n ds h1 h2
    simp only [Nat.toDigitsCore]
    by_cases hd : n / 10 = 0
    · rw [if_pos hd]
      have hn10 : n < 10 := by omega
      have hmod : n % 10 = n := Nat.mod_eq_of_lt hn10
      rw [hmod]
      refine ⟨Nat.digitChar n, rfl, ?_⟩
      interval_cases n <;> decide
    · rw [if_neg hd]
      apply ih
      · omega
      · have h3 : 10 ^ (fuel + 1) = 10 ^ fuel * 10 := pow_succ 10 fuel
        rw [Nat.div_lt_iff_lt_mul (by norm_num)]
        omega

theorem repr_head_zero_iff (k : Nat) (rest : List Char) :
    ((Nat.repr k).toList ++ rest).head? = some '0' ↔ k = 0 := by
  by_cases hk : k = 0
  · subst hk
    have h0 : (Nat.repr 0).toList = ['0'] := rfl
    rw [h0]
    simp
  · have h1 : 0 < k := Nat.pos_of_ne_zero hk
    have h2 : k < 10 ^ (k + 1) :=
      lt_of_lt_of_le (Nat.lt_pow_self (by norm_num) k)
        (Nat.pow_le_pow_right (by norm_num) (Nat.le_succ k))
    obtain ⟨c, hc, hne⟩ := toDigitsCore_head_ne_zero (k + 1) k [] h1 h2
    have hrl : (Nat.repr k).toList = Nat.toDigitsCore 10 (k + 1) k [] := rfl
    rw [hrl]
    cases hl : Nat.toDigitsCore 10 (k + 1) k [] with
    | nil =>
      rw [hl] at hc
      exact absurd hc (by simp)
    | cons c0 l' =>
      rw [hl] at hc
      simp only [List.head?_cons, Option.some.injEq] at hc
      subst hc
      simp only [List.cons_append, List.head?_cons, Option.some.injEq]
      constructor
      · intro hcc
        exact absurd hcc hne
      · intro hcc
        exact absurd hcc hk

/-- A scoring-condition string in the log format: the name, `'('`, the
count in canonical decimal, and the rest of the annotation. -/
def encodeYaku (n : Name) (k : Nat) (rest : List Char) : List Char :=
  n ++ '(' :: ((Nat.repr k).toList ++ rest)

theorem splitOnce_encode (n : Name) (c : List Char) (hn : ('(' : Char) ∉ n) :
    splitOnce '(' (n ++ '(' :: c) = some (n, c) := by
  induction n with
  | nil => simp [splitOnce]
  | cons x xs ih =>
    simp only [List.mem_cons, not_or] at hn
    have ih2 := ih hn.2
    simp only [List.cons_append, splitOnce, List.append_eq]
    rw [if_neg (fun hh => hn.1 hh.symm), ih2]
    rfl

theorem collectYakuStr_encode (inner : List (Name × Nat)) (n : Name) (k : Nat)
    (rest : List Char) (hn : ('(' : Char) ∉ n) :
    collectYakuStr inner (encodeYaku n k rest) =
      .ok (if n = uraDoraStr ∧ k = 0 then inner
        else aset inner n ((alookup inner n).getD 0 + 1)) := by
  simp only [collectYakuStr, encodeYaku, splitOnce_encode n _ hn]
  by_cases hsup : n = uraDoraStr ∧ k = 0
  · rw [if_pos hsup, if_pos ⟨hsup.1, (repr_head_zero_iff k rest).mpr hsup.2⟩]
  · rw [if_neg hsup, if_neg (fun hh => hsup ⟨hh.1, (repr_head_zero_iff k rest).mp hh.2⟩)]

/-- The concrete yaku list of the C7 witness: one nonzero entry and one
zero-count Ura Dora entry. -/
def wYs : List (Name × Nat × List Char) :=
  [("X".toList, 2, ")".toList), (uraDoraStr, 0, ")".toList)]

/-- C7: the yaku collector increments the winner's tally entry by exactly one
per listed scoring-condition name, except that an "Ura Dora" entry with a
(canonically encoded) zero count is suppressed: such an entry never creates
or bumps a tally entry, while a nonzero Ura Dora entry is tallied like any
other name. -/
theorem claim_C7 : ∀ (inner : List (Name × Nat)) (ys : List (Name × Nat × List Char)),
    (∀ p ∈ ys, ('(' : Char) ∉ p.1) →
    ∃ result, collectYakuList inner
        (ys.map (fun p => encodeYaku p.1 p.2.1 p.2.2)) = .ok result ∧
      (∀ t, (alookup result t).getD 0 = (alookup inner t).getD 0 +
        ys.countP (fun p =>
          decide (p.1 = t) && !(decide (p.1 = uraDoraStr) && decide (p.2.1 = 0)))) ∧
      (alookup inner uraDoraStr = none →
        (∀ p ∈ ys, p.1 = uraDoraStr → p.2.1 = 0) →
        alookup result uraDoraStr = none) := by
  intro inner ys
  induction ys generalizing inner with
  | nil =>
    intro hnames
    exact ⟨inner, rfl, by simp, fun h _ => h⟩
  | cons p ps ih =>
    intro hnames
    obtain ⟨n, k, rest⟩ := p
    have hn : ('(' : Char) ∉ n := hnames _ (List.mem_cons_self _ _)
    have hstep := collectYakuStr_encode inner n k rest hn
    set inner₁ := if n = uraDoraStr ∧ k = 0 then inner
      else aset inner n ((alookup inner n).getD 0 + 1) with hinner₁
    obtain ⟨result, hres, hcount, hura⟩ :=
      ih inner₁ (fun q hq => hnames q (List.mem_cons_of_mem _ hq))
    refine ⟨result, ?_, ?_, ?_⟩
    · simp only [List.map_cons, collectYakuList, hstep]
      exact hres
    · intro t
      rw [hcount t]
      have hc1 : (alookup inner₁ t).getD 0 = (alookup inner t).getD 0 +
          (if n = t ∧ ¬(n = uraDoraStr ∧ k = 0) then 1 else 0) := by
        rw [hinner₁]
        by_cases hsup : n = uraDoraStr ∧ k = 0
        · rw [if_pos hsup, if_neg (fun hh => hh.2 hsup)]
          omega
        · rw [if_neg hsup, alookup_aset]
          by_cases ht : n = t
          · rw [if_pos ht, if_pos ⟨ht, hsup⟩, ← ht]
            simp
          · rw [if_neg ht, if_neg (fun hh => ht hh.1)]
            simp
      rw [hc1, List.countP_cons]
      by_cases hcond : n = t ∧ ¬(n = uraDoraStr ∧ k = 0)
      · have hb : (decide (n = t) &&
            !(decide (n = uraDoraStr) && decide (k = 0))) = true := by
          obtain ⟨h1, h2⟩ := hcond
          subst h1
          by_cases hu : n = uraDoraStr
          · have hk2 : ¬ k = 0 := fun hk => h2 ⟨hu, hk⟩
            simp [hu, hk2]
          · simp [hu]
        rw [if_pos hcond, hb]
        simp only [if_true]
        omega
      · have hb : (decide (n = t) &&
            !(decide (n = uraDoraStr) && decide (k = 0))) = false := by
          by_cases hnt : n = t
          · have hsup : n = uraDoraStr ∧ k = 0 := by
              by_contra hs
              exact hcond ⟨hnt, hs⟩
            simp [hsup.1, hsup.2]
          · simp [hnt]
        rw [if_neg hcond, hb]
        simp only [Bool.false_eq_true, if_false]
        omega
    · intro h0 hall
      apply hura
      · rw [hinner₁]
        by_cases hsup : n = uraDoraStr ∧ k = 0
        · rw [if_pos hsup]
          exact h0
        · rw [if_neg hsup, alookup_aset]
          have hnu : ¬ n = uraDoraStr := by
            intro hh
            exact hsup ⟨hh, hall _ (List.mem_cons_self _ _) hh⟩
          rw [if_neg hnu]
          exact h0
      · exact fun q hq => hall q (List.mem_cons_of_mem _ hq)

theorem claim_C7_witness :
    ∃ result, collectYakuList []
        (wYs.map (fun p => encodeYaku p.1 p.2.1 p.2.2)) = .ok result ∧
      (∀ t, (alookup result t).getD 0 = (alookup ([] : List (Name × Nat)) t).getD 0 +
        wYs.countP (fun p =>
          decide (p.1 = t) && !(decide (p.1 = uraDoraStr) && decide (p.2.1 = 0)))) ∧
      (alookup ([] : List (Name × Nat)) uraDoraStr = none →
        (∀ p ∈ wYs, p.1 = uraDoraStr → p.2.1 = 0) →
        alookup result uraDoraStr = none) :=
  claim_C7 [] wYs (by decide)

/-! ## Fatal errors abort the whole run -/

theorem replayPlayer_horaNone {S : Type} (sim : Sim S) (lg : GameLog)
    (a t : Fin 4) (um : Option (List (Fin 34)))
    (hmem : Event.hora a t none um ∈ lg.events) (dur : Option Nat) (pid : Fin 4)
    (pi : List (Name × PlayerInfo)) :
    ∀ r, replayPlayer sim lg dur pid pi ≠ .ok r := by
  intro r
  simp only [replayPlayer]
  cases hre : replayEvents sim pid dur.isSome (sim.init pid)
      (match dur with
        | some d => { (alookup pi (lg.names pid)).getD pzero with
            seconds_played := ((alookup pi (lg.names pid)).getD pzero).seconds_played +
              d % 4294967296 }
        | none => (alookup pi (lg.names pid)).getD pzero) lg.events with
  | error e => simp
  | ok p => exact absurd hre (replayEvents_horaNone sim pid dur.isSome lg.events
      a t um hmem _ _ p)

theorem processLog_horaNone {S : Type} (sim : Sim S) (lg : GameLog)
    (a t : Fin 4) (um : Option (List (Fin 34)))
    (hmem : Event.hora a t none um ∈ lg.events) (pi : List (Name × PlayerInfo))
    (yi : List (Name × List (Name × Nat))) :
    ∀ r, processLog sim lg pi yi ≠ .ok r := by
  intro r
  simp only [processLog]
  cases hdur : computeDuration lg.mjshead with
  | error e => simp
  | ok dur =>
    cases hcol : collectKyokus lg.names yi lg.kyokus with
    | error e => simp
    | ok yi₁ =>
      have hfr : List.finRange 4 = [0, 1, 2, 3] := rfl
      rw [hfr]
      simp only [runSeats]
      cases hrp : replayPlayer sim lg dur 0 pi with
      | error e => simp
      | ok pi₁ => exact absurd hrp (replayPlayer_horaNone sim lg a t um hmem dur 0 pi pi₁)

theorem collectYakuList_badYaku (y : List Char) (hy : splitOnce '(' y = none) :
    ∀ (ys : List (List Char)) (inner : List (Name × Nat)), y ∈ ys →
    ∀ r, collectYakuList inner ys ≠ .ok r := by
  intro ys
  induction ys with
  | nil =>
    intro inner hmem
    cases hmem
  | cons y0 ys ih =>
    intro inner hmem r
    simp only [collectYakuList]
    rcases List.mem_cons.mp hmem with rfl | hmem2
    · simp only [collectYakuStr, hy]
      simp
    · cases hs : collectYakuStr inner y0 with
      | error e => simp
      | ok inner₁ => exact ih inner₁ hmem2 r

theorem collectDetails_badYaku (y : List Char) (hy : splitOnce '(' y = none)
    (names : Fin 4 → Name) :
    ∀ (ds : List HoraDetail) (d : HoraDetail), d ∈ ds → y ∈ d.yaku →
    ∀ (yi : List (Name × List (Name × Nat))) r, collectDetails names yi ds ≠ .ok r := by
  intro ds
  induction ds with
  | nil =>
    intro d hmem
    cases hmem
  | cons d0 ds ih =>
    intro d hmem hmy yi r
    simp only [collectDetails]
    rcases List.mem_cons.mp hmem with rfl | hmem2
    · simp only [collectDetail]
      cases hl : collectYakuList ((alookup yi (names d.who)).getD []) d.yaku with
      | error e => simp
      | ok inner₁ => exact absurd hl (collectYakuList_badYaku y hy d.yaku _ hmy _)
    · cases hd0 : collectDetail names yi d0 with
      | error e => simp
      | ok yi₁ => exact ih d hmem2 hmy yi₁ r

theorem collectKyokus_badYaku (y : List Char) (hy : splitOnce '(' y = none)
    (names : Fin 4 → Name) :
    ∀ (kys : List Kyoku) (ky : Kyoku) (ds : List HoraDetail) (d : HoraDetail),
    ky ∈ kys → ky.endStatus = .hora ds → d ∈ ds → y ∈ d.yaku →
    ∀ (yi : List (Name × List (Name × Nat))) r, collectKyokus names yi kys ≠ .ok r := by
  intro kys
  induction kys with
  | nil =>
    intro ky ds d hmem
    cases hmem
  | cons ky0 kys ih =>
    intro ky ds d hmem hke hdm hym yi r
    simp only [collectKyokus]
    rcases List.mem_cons.mp hmem with rfl | hmem2
    · rw [hke]
      show (match collectDetails names yi ds with
        | Except.error e => Except.error e
        | Except.ok yi2 => collectKyokus names yi2 kys) ≠ Except.ok r
      cases hds : collectDetails names yi ds with
      | error e => simp
      | ok yi₁ => exact absurd hds (collectDetails_badYaku y hy names ds d hdm hym yi _)
    · cases hke0 : ky0.endStatus with
      | hora ds0 =>
        show (match collectDetails names yi ds0 with
          | Except.error e => Except.error e
          | Except.ok yi2 => collectKyokus names yi2 kys) ≠ Except.ok r
        cases hds : collectDetails names yi ds0 with
        | error e => simp
        | ok yi₁ => exact ih ky ds d hmem2 hke hdm hym yi₁ r
      | ryukyoku => exact ih ky ds d hmem2 hke hdm hym yi r

theorem processLog_badYaku {S : Type} (sim : Sim S) (lg : GameLog)
    (ky : Kyoku) (ds : List HoraDetail) (d : HoraDetail) (y : List Char)
    (hmem : ky ∈ lg.kyokus) (hke : ky.endStatus = .hora ds) (hdm : d ∈ ds)
    (hym : y ∈ d.yaku) (hy : splitOnce '(' y = none)
    (pi : List (Name × PlayerInfo)) (yi : List (Name × List (Name × Nat))) :
    ∀ r, processLog sim lg pi yi ≠ .ok r := by
  intro r
  simp only [processLog]
  cases hdur : computeDuration lg.mjshead with
  | error e => simp
  | ok dur =>
    cases hcol : collectKyokus lg.names yi lg.kyokus with
    | error e => simp
    | ok yi₁ =>
      exact absurd hcol
        (collectKyokus_badYaku y hy lg.names lg.kyokus ky ds d hmem hke hdm hym yi yi₁)

theorem runLogs_badLog {S : Type} (sim : Sim S) (lg : GameLog)
    (hbad : ∀ pi yi r, processLog sim lg pi yi ≠ .ok r) :
    ∀ (logs : List GameLog), lg ∈ logs →
    ∀ pi yi r, runLogs sim pi yi logs ≠ .ok r := by
  intro logs
  induction logs with
  | nil =>
    intro hmem
    cases hmem
  | cons lg0 logs ih =>
    intro hmem pi yi r
    simp only [runLogs]
    rcases List.mem_cons.mp hmem with rfl | hmem2
    · cases hp : processLog sim lg pi yi with
      | error e => simp
      | ok acc => exact absurd hp (hbad pi yi acc)
    · cases hp : processLog sim lg0 pi yi with
      | error e => simp
      | ok acc => exact ih hmem2 acc.1 acc.2 r

/-- C8: errors are fatal and abort everything: a win event whose per-seat
score deltas are absent makes the whole run fail (the result of `main` up to
output, `runAll`, is never `ok`, so no table is produced), and so does a
scoring-condition name string lacking the `'('` count delimiter; there is no
skip-and-continue of the offending log. -/
theorem claim_C8 :
    (∀ (S : Type) (sim : Sim S) (logs : List GameLog) (lg : GameLog)
        (a t : Fin 4) (um : Option (List (Fin 34))),
      lg ∈ logs → Event.hora a t none um ∈ lg.events →
      ∀ r, runAll sim logs ≠ .ok r) ∧
    (∀ (S : Type) (sim : Sim S) (logs : List GameLog) (lg : GameLog)
        (ky : Kyoku) (ds : List HoraDetail) (d : HoraDetail) (y : List Char),
      lg ∈ logs → ky ∈ lg.kyokus → ky.endStatus = .hora ds → d ∈ ds → y ∈ d.yaku →
      splitOnce '(' y = none →
      ∀ r, runAll sim logs ≠ .ok r) := by
  constructor
  · intro S sim logs lg a t um hlg hev r
    exact runLogs_badLog sim lg (fun pi yi r2 => processLog_horaNone sim lg a t um hev pi yi r2)
      logs hlg [] [] r
  · intro S sim logs lg ky ds d y hlg hky hke hdm hym hy r
    exact runLogs_badLog sim lg
      (fun pi yi r2 => processLog_badYaku sim lg ky ds d y hky hke hdm hym hy pi yi r2)
      logs hlg [] [] r

/-- A log whose only win event carries no score deltas. -/
def badLog1 : GameLog where
  names := ![nmA, nmB, nmC, nmD]
  kyokus := []
  mjshead := none
  events := [.startKyoku, .hora 0 1 none none]

/-- A log with a malformed scoring-condition string (no `'('`). -/
def badLog2 : GameLog where
  names := ![nmA, nmB, nmC, nmD]
  kyokus := [⟨.hora [⟨0, ["Bad".toList]⟩]⟩]
  mjshead := none
  events := [.startKyoku]

theorem claim_C8_witness :
    (∀ r, runAll trivSim [badLog1] ≠ .ok r) ∧
    (∀ r, runAll trivSim [badLog2] ≠ .ok r) :=
  ⟨fun r => claim_C8.1 Unit trivSim [badLog1] badLog1 0 1 none
      (List.mem_cons_self _ _)
      (List.mem_cons_of_mem _ (List.mem_cons_self _ _)) r,
    fun r => claim_C8.2 Unit trivSim [badLog2] badLog2 ⟨.hora [⟨0, ["Bad".toList]⟩]⟩
      [⟨0, ["Bad".toList]⟩] ⟨0, ["Bad".toList]⟩ "Bad".toList
      (List.mem_cons_self _ _) (List.mem_cons_self _ _) rfl
      (List.mem_cons_self _ _) (List.mem_cons_self _ _) (by decide) r⟩

/-! ## Duration accounting -/

theorem psum_seconds (l : List PlayerInfo) :
    (psum l).seconds_played = (l.map (fun c => c.seconds_played)).sum := by
  induction l with
  | nil => simp [psum, pzero]
  | cons c l ih => simp [psum, PlayerInfo.add, ih]

theorem psum_action (l : List PlayerInfo) :
    (psum l).action_count = (l.map (fun c => c.action_count)).sum := by
  induction l with
  | nil => simp [psum, pzero]
  | cons c l ih => simp [psum, PlayerInfo.add, ih]

theorem runSeats_seatOk {S : Type} (sim : Sim S) (lg : GameLog) (dur : Option Nat) :
    ∀ (ps : List (Fin 4)) (pi pi' : List (Name × PlayerInfo)),
    runSeats sim lg dur pi ps = .ok pi' →
    ∀ pid ∈ ps, ∃ c, seatDelta sim lg dur pid = .ok c := by
  intro ps
  induction ps with
  | nil =>
    intro pi pi' h pid hmem
    cases hmem
  | cons p ps ih =>
    intro pi pi' h pid hmem
    simp only [runSeats] at h
    cases hp : replayPlayer sim lg dur p pi with
    | error e =>
      rw [hp] at h
      exact Except.noConfusion (h : (Except.error e : Except String _) = .ok pi')
    | ok pi₁ =>
      rw [hp] at h
      rcases List.mem_cons.mp hmem with rfl | hmem2
      · rw [replayPlayer_eq] at hp
        cases hsd : seatDelta sim lg dur pid with
        | error e =>
          rw [hsd] at hp
          simp only [Except.map] at hp
          exact Except.noConfusion hp
        | ok c => exact ⟨c, rfl⟩
      · exact ih pi₁ pi' h pid hmem2

/-- The truncated seconds a resolved duration adds per seat. -/
def durSecs : Option Nat → Nat
  | some dd => dd % 4294967296
  | none => 0

theorem seatDelta_fields {S : Type} (sim : Sim S) (lg : GameLog) (dur : Option Nat)
    (pid : Fin 4) (c : PlayerInfo) (h : seatDelta sim lg dur pid = .ok c) :
    c.seconds_played = durSecs dur ∧
    (dur = none → c.action_count = 0) := by
  simp only [seatDelta] at h
  cases hr : replayEvents sim pid dur.isSome (sim.init pid) pzero lg.events with
  | error e =>
    rw [hr] at h
    simp only [Except.map] at h
    exact Except.noConfusion h
  | ok p =>
    obtain ⟨st2, δ⟩ := p
    rw [hr] at h
    simp only [Except.map, Except.ok.injEq] at h
    subst h
    obtain ⟨-, -, -, -, hsec, hact⟩ := replayDelta_props sim pid dur.isSome lg.events
      (sim.init pid) st2 δ hr
    cases dur with
    | none =>
      have ha := hact (by simp)
      simp [durationInfo, durSecs, PlayerInfo.add, pzero, hsec, ha]
    | some dd =>
      simp [durationInfo, durSecs, PlayerInfo.add, pzero, hsec]

theorem processLog_seatOk {S : Type} (sim : Sim S) (lg : GameLog)
    (pi pi' : List (Name × PlayerInfo)) (yi yi' : List (Name × List (Name × Nat)))
    (h : processLog sim lg pi yi = .ok (pi', yi')) :
    ∀ pid, ∃ c, seatDelta sim lg (durD lg) pid = .ok c := by
  intro pid
  simp only [processLog] at h
  cases hdur : computeDuration lg.mjshead with
  | error e =>
    rw [hdur] at h
    exact Except.noConfusion (h : (Except.error e : Except String _) = .ok (pi', yi'))
  | ok dur =>
    rw [hdur] at h
    have h2 : (match collectKyokus lg.names yi lg.kyokus with
        | Except.error e => Except.error e
        | Except.ok yi2 =>
          match runSeats sim lg dur pi (List.finRange 4) with
          | Except.error e => Except.error e
          | Except.ok pi2 => Except.ok (pi2, yi2)) = Except.ok (pi', yi') := h
    cases hcol : collectKyokus lg.names yi lg.kyokus with
    | error e =>
      rw [hcol] at h2
      exact Except.noConfusion (h2 : (Except.error e : Except String _) = .ok (pi', yi'))
    | ok yi₁ =>
      rw [hcol] at h2
      cases hrs : runSeats sim lg dur pi (List.finRange 4) with
      | error e =>
        rw [hrs] at h2
        exact Except.noConfusion (h2 : (Except.error e : Except String _) = .ok (pi', yi'))
      | ok pi₁ =>
        have hdd : durD lg = dur := by simp [durD, hdur]
        rw [hdd]
        exact runSeats_seatOk sim lg dur (List.finRange 4) pi pi₁ hrs pid
          (List.mem_finRange pid)

/-- The seconds and action components of a log's per-player increment. -/
theorem logInfoContrib_fields {S : Type} (sim : Sim S) (lg : GameLog) (name : Name)
    (hok : ∀ pid, ∃ c, seatDelta sim lg (durD lg) pid = .ok c) :
    (logInfoContrib sim lg name).seconds_played =
      ((List.finRange 4).filter (fun pid => lg.names pid = name)).length *
        durSecs (durD lg) ∧
    (durD lg = none → (logInfoContrib sim lg name).action_count = 0) := by
  have helem : ∀ pid, (seatDeltaD sim lg (durD lg) pid).seconds_played =
      durSecs (durD lg) ∧
      (durD lg = none → (seatDeltaD sim lg (durD lg) pid).action_count = 0) := by
    intro pid
    obtain ⟨c, hc⟩ := hok pid
    have h2 := seatDelta_fields sim lg (durD lg) pid c hc
    simp only [seatDeltaD, hc]
    exact h2
  constructor
  · rw [logInfoContrib, seatsContrib, psum_seconds, List.map_map]
    have hmap : ((List.finRange 4).filter (fun pid => lg.names pid = name)).map
        ((fun c => c.seconds_played) ∘ (fun pid => seatDeltaD sim lg (durD lg) pid)) =
        ((List.finRange 4).filter (fun pid => lg.names pid = name)).map
        (fun _ => durSecs (durD lg)) := by
      apply List.map_congr_left
      intro pid hmem
      exact (helem pid).1
    rw [hmap]
    have hconst : ∀ (l : List (Fin 4)) (k : Nat), (l.map (fun _ => k)).sum = l.length * k := by
      intro l k
      induction l with
      | nil => simp
      | cons x l ih =>
        simp only [List.map_cons, List.sum_cons, List.length_cons, ih]
        ring
    exact hconst _ _
  · intro hnone
    rw [logInfoContrib, seatsContrib, psum_action, List.map_map]
    have hmap : ((List.finRange 4).filter (fun pid => lg.names pid = name)).map
        ((fun c => c.action_count) ∘ (fun pid => seatDeltaD sim lg (durD lg) pid)) =
        ((List.finRange 4).filter (fun pid => lg.names pid = name)).map
        (fun _ => (0 : Nat)) := by
      apply List.map_congr_left
      intro pid hmem
      exact (helem pid).2 hnone
    rw [hmap]
    simp

theorem processLog_dur {S : Type} (sim : Sim S) (lg : GameLog)
    (pi pi' : List (Name × PlayerInfo)) (yi yi' : List (Name × List (Name × Nat)))
    (h : processLog sim lg pi yi = .ok (pi', yi')) :
    computeDuration lg.mjshead = .ok (durD lg) := by
  simp only [processLog] at h
  cases hdur : computeDuration lg.mjshead with
  | error e =>
    rw [hdur] at h
    exact Except.noConfusion (h : (Except.error e : Except String _) = .ok (pi', yi'))
  | ok dur =>
    have hdd : durD lg = dur := by simp [durD, hdur]
    rw [hdd]

/-- C10: a log with duration metadata resolves to the unguarded subtraction
`end_time - start_time`, which never fails when both timestamps are present
and `end_time ≥ start_time`; the resolved duration, truncated to 32 bits, is
added to `seconds_played` once per seat the player occupies in that log; and
a log without the metadata key leaves both `seconds_played` and
`action_count` unchanged for every player. -/
theorem claim_C10 :
    (∀ s e : Nat, s ≤ e →
      computeDuration (some ⟨some s, some e⟩) = .ok (some (e - s))) ∧
    (∀ (S : Type) (sim : Sim S) (lg : GameLog)
        (pi pi' : List (Name × PlayerInfo)) (yi yi' : List (Name × List (Name × Nat)))
        (s e : Nat),
      processLog sim lg pi yi = .ok (pi', yi') →
      lg.mjshead = some ⟨some s, some e⟩ →
      ∀ name v, alookup pi' name = some v →
        v.seconds_played = ((alookup pi name).getD pzero).seconds_played +
          ((List.finRange 4).filter (fun pid => lg.names pid = name)).length *
            ((e - s) % 4294967296)) ∧
    (∀ (S : Type) (sim : Sim S) (lg : GameLog)
        (pi pi' : List (Name × PlayerInfo)) (yi yi' : List (Name × List (Name × Nat))),
      processLog sim lg pi yi = .ok (pi', yi') →
      lg.mjshead = none →
      ∀ name v, alookup pi' name = some v →
        v.seconds_played = ((alookup pi name).getD pzero).seconds_played ∧
        v.action_count = ((alookup pi name).getD pzero).action_count) := by
  refine ⟨fun s e hse => ?_, ?_, ?_⟩
  · simp only [computeDuration]
    rw [if_pos hse]
  · intro S sim lg pi pi' yi yi' s e h hmj name v hv
    have hcd := processLog_dur sim lg pi pi' yi yi' h
    rw [hmj] at hcd
    simp only [computeDuration] at hcd
    split_ifs at hcd with hse
    · have hdd : durD lg = some (e - s) := ((Except.ok.injEq _ _).mp hcd).symm
      have hok := processLog_seatOk sim lg pi pi' yi yi' h
      have hfields := logInfoContrib_fields sim lg name hok
      have h1 := (processLog_char sim lg pi pi' yi yi' h).1 name
      rw [hv] at h1
      by_cases hcnd : name ∈ pi.map Prod.fst ∨ ∃ pid, lg.names pid = name
      · rw [if_pos hcnd] at h1
        have hveq : v = ((alookup pi name).getD pzero).add (logInfoContrib sim lg name) :=
          (Option.some.injEq _ _).mp h1
        rw [hveq]
        simp only [PlayerInfo.add]
        rw [hfields.1, hdd]
        rfl
      · rw [if_neg hcnd] at h1
        exact Option.noConfusion h1
  · intro S sim lg pi pi' yi yi' h hmj name v hv
    have hdd : durD lg = none := by simp [durD, hmj, computeDuration]
    have hok := processLog_seatOk sim lg pi pi' yi yi' h
    have hfields := logInfoContrib_fields sim lg name hok
    have h1 := (processLog_char sim lg pi pi' yi yi' h).1 name
    rw [hv] at h1
    by_cases hcnd : name ∈ pi.map Prod.fst ∨ ∃ pid, lg.names pid = name
    · rw [if_pos hcnd] at h1
      have hveq : v = ((alookup pi name).getD pzero).add (logInfoContrib sim lg name) :=
        (Option.some.injEq _ _).mp h1
      have hsec := hfields.1
      rw [hdd] at hsec
      have hact := hfields.2 hdd
      rw [hveq]
      constructor
      · simp only [PlayerInfo.add]
        rw [hsec]
        simp [durSecs]
      · simp only [PlayerInfo.add]
        rw [hact]
        exact Nat.add_zero _
    · rw [if_neg hcnd] at h1
      exact Option.noConfusion h1

theorem claim_C10_witness :
    computeDuration (some ⟨some 100, some 160⟩) = .ok (some 60) ∧
    ((alookup wPi nmA).getD pzero).seconds_played =
      ((alookup ([] : List (Name × PlayerInfo)) nmA).getD pzero).seconds_played +
        ((List.finRange 4).filter (fun pid => wLog.names pid = nmA)).length *
          ((160 - 100) % 4294967296) :=
  ⟨claim_C10.1 100 160 (by decide),
    claim_C10.2.1 Unit trivSim wLog [] wPi [] wYi 100 160 (by rfl) rfl nmA
      ((alookup wPi nmA).getD pzero) (by rfl)⟩

/-- C9: the final accumulators are invariant under permutation of the input
logs: when both orders succeed, every player's final `PlayerInfo` lookup,
every yaku tally cell, and the set of yaku-table keys coincide — each log
contributes an order-independent per-log increment merged by pure addition. -/
theorem claim_C9 {S : Type} (sim : Sim S) (logs₁ logs₂ : List GameLog)
    (pi₁ pi₂ : List (Name × PlayerInfo)) (yi₁ yi₂ : List (Name × List (Name × Nat)))
    (hperm : logs₁.Perm logs₂)
    (h₁ : runAll sim logs₁ = .ok (pi₁, yi₁))
    (h₂ : runAll sim logs₂ = .ok (pi₂, yi₂)) :
    (∀ name, alookup pi₁ name = alookup pi₂ name) ∧
    (∀ n t, tallyOf yi₁ n t = tallyOf yi₂ n t) ∧
    (∀ n, n ∈ yi₁.map Prod.fst ↔ n ∈ yi₂.map Prod.fst) := by
  obtain ⟨ha1, hb1, hc1⟩ := runLogs_char sim logs₁ [] pi₁ [] yi₁ h₁
  obtain ⟨ha2, hb2, hc2⟩ := runLogs_char sim logs₂ [] pi₂ [] yi₂ h₂
  refine ⟨fun name => ?_, fun n t => ?_, fun n => ?_⟩
  · rw [ha1 name, ha2 name]
    have hsum : psum (logs₁.map (fun lg => logInfoContrib sim lg name)) =
        psum (logs₂.map (fun lg => logInfoContrib sim lg name)) :=
      psum_perm (hperm.map _)
    have hmem : (∃ lg ∈ logs₁, ∃ pid, lg.names pid = name) ↔
        ∃ lg ∈ logs₂, ∃ pid, lg.names pid = name := by
      constructor
      · rintro ⟨lg, hm, hp⟩
        exact ⟨lg, hperm.mem_iff.mp hm, hp⟩
      · rintro ⟨lg, hm, hp⟩
        exact ⟨lg, hperm.mem_iff.mpr hm, hp⟩
    simp only [hsum, hmem]
  · rw [hb1 n t, hb2 n t,
      List.Perm.sum_eq (hperm.map (fun lg => logYakuContrib lg n t))]
  · rw [hc1 n, hc2 n]
    simp only [List.map_nil, List.not_mem_nil, false_or]
    constructor
    · rintro ⟨lg, hm, hp⟩
      exact ⟨lg, hperm.mem_iff.mp hm, hp⟩
    · rintro ⟨lg, hm, hp⟩
      exact ⟨lg, hperm.mem_iff.mpr hm, hp⟩

def w9Run1 : Except String (List (Name × PlayerInfo) × List (Name × List (Name × Nat))) :=
  runAll trivSim [wLog, cexLog1]

def w9Run2 : Except String (List (Name × PlayerInfo) × List (Name × List (Name × Nat))) :=
  runAll trivSim [cexLog1, wLog]

def w9Pi1 : List (Name × PlayerInfo) :=
  match w9Run1 with
  | .ok p => p.1
  | .error _ => []

def w9Pi2 : List (Name × PlayerInfo) :=
  match w9Run2 with
  | .ok p => p.1
  | .error _ => []

def w9Yi1 : List (Name × List (Name × Nat)) :=
  match w9Run1 with
  | .ok p => p.2
  | .error _ => []

def w9Yi2 : List (Name × List (Name × Nat)) :=
  match w9Run2 with
  | .ok p => p.2
  | .error _ => []

theorem claim_C9_witness :
    alookup w9Pi1 nmA = alookup w9Pi2 nmA ∧ tallyOf w9Yi1 nmA nmA = tallyOf w9Yi2 nmA nmA :=
  let h := claim_C9 trivSim [wLog, cexLog1] [cexLog1, wLog] w9Pi1 w9Pi2 w9Yi1 w9Yi2
    (List.Perm.swap cexLog1 wLog []) (by rfl) (by rfl)
  ⟨h.1 nmA, h.2.1 nmA nmA⟩

/-! ## Sorting and position lemmas for the report -/

theorem insertBy_perm {α : Type} (le : α → α → Bool) (a : α) (l : List α) :
    (insertBy le a l).Perm (a :: l) := by
  induction l with
  | nil => exact List.Perm.refl _
  | cons b l ih =>
    rw [insertBy]
    by_cases h : le b a && !(le a b)
    · rw [if_pos h]
      exact (ih.cons b).trans (List.Perm.swap a b l)
    · rw [if_neg h]

theorem sortBy_perm {α : Type} (le : α → α → Bool) (l : List α) :
    (sortBy le l).Perm l := by
  induction l with
  | nil => exact List.Perm.refl _
  | cons a l ih => exact (insertBy_perm le a (sortBy le l)).trans (ih.cons a)

theorem mem_insertBy {α : Type} (le : α → α → Bool) (a x : α) (l : List α) :
    x ∈ insertBy le a l ↔ x = a ∨ x ∈ l := by
  rw [(insertBy_perm le a l).mem_iff]
  simp

theorem insertBy_pairwise {α : Type} (le : α → α → Bool)
    (htot : ∀ a b, le a b || le b a)
    (htrans : ∀ a b c, le a b = true → le b c = true → le a c = true)
    (a : α) (l : List α) (h : l.Pairwise (fun x y => le x y = true)) :
    (insertBy le a l).Pairwise (fun x y => le x y = true) := by
  induction l with
  | nil => simp [insertBy]
  | cons b l ih =>
    rw [List.pairwise_cons] at h
    rw [insertBy]
    by_cases hg : le b a && !(le a b)
    · rw [if_pos hg]
      rw [List.pairwise_cons]
      refine ⟨fun x hx => ?_, ih h.2⟩
      rcases (mem_insertBy le a x l).mp hx with rfl | hx
      · exact (Bool.and_eq_true _ _ |>.mp hg).1
      · exact h.1 x hx
    · rw [if_neg hg]
      have hab : le a b = true := by
        cases hab : le a b with
        | true => rfl
        | false =>
          have hba : le b a = true := by
            have ht := htot a b
            rw [hab] at ht
            simpa using ht
          exact absurd (by rw [hba, hab]; rfl) hg
      rw [List.pairwise_cons]
      refine ⟨fun x hx => ?_, List.pairwise_cons.mpr ⟨h.1, h.2⟩⟩
      rcases List.mem_cons.mp hx with rfl | hx
      · exact hab
      · exact htrans a b x hab (h.1 x hx)

theorem sortBy_pairwise {α : Type} (le : α → α → Bool)
    (htot : ∀ a b, le a b || le b a)
    (htrans : ∀ a b c, le a b = true → le b c = true → le a c = true)
    (l : List α) : (sortBy le l).Pairwise (fun x y => le x y = true) := by
  induction l with
  | nil => simp [sortBy]
  | cons a l ih => exact insertBy_pairwise le htot htrans a _ ih

theorem posIn_getElem {α : Type} [DecidableEq α] :
    ∀ (l : List α) (a : α) (i : Nat), posIn l a = some i → l[i]? = some a := by
  intro l
  induction l with
  | nil =>
    intro a i h
    simp [posIn] at h
  | cons b l ih =>
    intro a i h
    rw [posIn] at h
    by_cases hb : b = a
    · rw [if_pos hb] at h
      have h0 : (0 : Nat) = i := (Option.some.injEq _ _).mp h
      subst h0
      simpa using hb
    · rw [if_neg hb] at h
      cases hp : posIn l a with
      | none =>
        rw [hp] at h
        exact Option.noConfusion h
      | some j =>
        rw [hp] at h
        simp only [Option.map_some'] at h
        have hj : j + 1 = i := (Option.some.injEq _ _).mp h
        subst hj
        simpa using ih a j hp

theorem posIn_inj {α : Type} [DecidableEq α] (l : List α) (a b : α) (i : Nat)
    (ha : posIn l a = some i) (hb : posIn l b = some i) : a = b := by
  have h1 := posIn_getElem l a i ha
  have h2 := posIn_getElem l b i hb
  rw [h1] at h2
  exact (Option.some.injEq _ _).mp h2

theorem posIn_mem {α : Type} [DecidableEq α] (l : List α) (a : α) (h : a ∈ l) :
    ∃ i, posIn l a = some i := by
  induction l with
  | nil => cases h
  | cons b l ih =>
    rw [posIn]
    by_cases hb : b = a
    · exact ⟨0, by rw [if_pos hb]⟩
    · rw [if_neg hb]
      rcases List.mem_cons.mp h with rfl | hm
      · exact absurd rfl hb
      · obtain ⟨i, hi⟩ := ih hm
        exact ⟨i + 1, by rw [hi]; rfl⟩

theorem posIn_of_nodup {α : Type} [DecidableEq α] :
    ∀ (l : List α), l.Nodup → ∀ (i : Nat) (h : i < l.length),
      posIn l (l.get ⟨i, h⟩) = some i := by
  intro l
  induction l with
  | nil =>
    intro _ i h
    exact absurd h (Nat.not_lt_zero i)
  | cons b l ih =>
    intro hnd i h
    rw [List.nodup_cons] at hnd
    cases i with
    | zero =>
      have hg : (b :: l).get ⟨0, h⟩ = b := rfl
      rw [posIn, hg, if_pos rfl]
    | succ j =>
      have hj : j < l.length := Nat.lt_of_succ_lt_succ h
      have hget : (b :: l).get ⟨j + 1, h⟩ = l.get ⟨j, hj⟩ := rfl
      rw [hget, posIn]
      have hb : ¬ (b = l.get ⟨j, hj⟩) := by
        intro hc
        exact hnd.1 (hc ▸ List.get_mem l j hj)
      rw [if_neg hb, ih hnd.2 j hj]
      rfl

theorem nodup_pairwise_pos {α : Type} [DecidableEq α] (l : List α) (h : l.Nodup) :
    l.Pairwise (fun a b => ∃ i j, posIn l a = some i ∧ posIn l b = some j ∧ i < j) := by
  rw [List.pairwise_iff_get]
  intro i j hij
  exact ⟨i, j, posIn_of_nodup l h i i.isLt, posIn_of_nodup l h j j.isLt, hij⟩

/-! ## Key-uniqueness invariants of the accumulator maps -/

theorem alookup_mem {α β : Type} [DecidableEq α] :
    ∀ (m : List (α × β)) (a : α) (b : β), alookup m a = some b → (a, b) ∈ m := by
  intro m
  induction m with
  | nil =>
    intro a b h
    simp [alookup] at h
  | cons p m ih =>
    intro a b h
    obtain ⟨pk, pv⟩ := p
    rw [alookup] at h
    by_cases hk : pk = a
    · rw [if_pos hk] at h
      have hv : pv = b := (Option.some.injEq _ _).mp h
      subst hk
      subst hv
      exact List.mem_cons_self _ _
    · rw [if_neg hk] at h
      exact List.mem_cons_of_mem _ (ih a b h)

theorem mem_aset {α β : Type} [DecidableEq α] :
    ∀ (m : List (α × β)) (k : α) (v : β) (p : α × β),
    p ∈ aset m k v → p ∈ m ∨ p = (k, v) := by
  intro m
  induction m with
  | nil =>
    intro k v p h
    rw [aset] at h
    rcases List.mem_cons.mp h with rfl | h2
    · exact Or.inr rfl
    · cases h2
  | cons q m ih =>
    intro k v p h
    obtain ⟨qk, qv⟩ := q
    rw [aset] at h
    by_cases hk : qk = k
    · subst hk
      rw [if_pos rfl] at h
      rcases List.mem_cons.mp h with rfl | h2
      · exact Or.inr rfl
      · exact Or.inl (List.mem_cons_of_mem _ h2)
    · rw [if_neg hk] at h
      rcases List.mem_cons.mp h with rfl | h2
      · exact Or.inl (List.mem_cons_self _ _)
      · rcases ih k v p h2 with h3 | h3
        · exact Or.inl (List.mem_cons_of_mem _ h3)
        · exact Or.inr h3

theorem collectYakuStr_nodup (inner inner' : List (Name × Nat)) (y : List Char)
    (hn : (inner.map Prod.fst).Nodup) (h : collectYakuStr inner y = .ok inner') :
    (inner'.map Prod.fst).Nodup := by
  simp only [collectYakuStr] at h
  cases hs : splitOnce '(' y with
  | none =>
    rw [hs] at h
    exact Except.noConfusion h
  | some p =>
    obtain ⟨yn, yc⟩ := p
    rw [hs] at h
    have h2 : (if yn = uraDoraStr ∧ yc.head? = some '0' then (Except.ok inner : Except String _)
        else Except.ok (aset inner yn ((alookup inner yn).getD 0 + 1))) = Except.ok inner' := h
    by_cases hc : yn = uraDoraStr ∧ yc.head? = some '0'
    · rw [if_pos hc] at h2
      have hi : inner = inner' := (Except.ok.injEq _ _).mp h2
      exact hi ▸ hn
    · rw [if_neg hc] at h2
      have hi : aset inner yn ((alookup inner yn).getD 0 + 1) = inner' :=
        (Except.ok.injEq _ _).mp h2
      exact hi ▸ nodup_keys_aset inner yn _ hn

theorem collectYakuList_nodup (ys : List (List Char)) :
    ∀ (inner inner' : List (Name × Nat)), (inner.map Prod.fst).Nodup →
    collectYakuList inner ys = .ok inner' → (inner'.map Prod.fst).Nodup := by
  induction ys with
  | nil =>
    intro inner inner' hn h
    have hi : inner = inner' := (Except.ok.injEq _ _).mp h
    exact hi ▸ hn
  | cons y ys ih =>
    intro inner inner' hn h
    simp only [collectYakuList] at h
    cases hy : collectYakuStr inner y with
    | error e =>
      rw [hy] at h
      exact Except.noConfusion (h : (Except.error e : Except String _) = .ok inner')
    | ok inner₁ =>
      rw [hy] at h
      exact ih inner₁ inner' (collectYakuStr_nodup inner inner₁ y hn hy) h

theorem collectDetail_nodup (names : Fin 4 → Name)
    (yi yi' : List (Name × List (Name × Nat))) (d : HoraDetail)
    (hk : (yi.map Prod.fst).Nodup) (hin : ∀ p ∈ yi, (p.2.map Prod.fst).Nodup)
    (h : collectDetail names yi d = .ok yi') :
    (yi'.map Prod.fst).Nodup ∧ ∀ p ∈ yi', (p.2.map Prod.fst).Nodup := by
  simp only [collectDetail] at h
  have hinn : (((alookup yi (names d.who)).getD []).map Prod.fst).Nodup := by
    cases hl : alookup yi (names d.who) with
    | none => simp
    | some t =>
      simp only [Option.getD_some]
      exact hin (names d.who, t) (alookup_mem yi _ t hl)
  cases hcl : collectYakuList ((alookup yi (names d.who)).getD []) d.yaku with
  | error e =>
    rw [hcl] at h
    exact Except.noConfusion (h : (Except.error e : Except String _) = .ok yi')
  | ok inner' =>
    rw [hcl] at h
    have hy : aset yi (names d.who) inner' = yi' := (Except.ok.injEq _ _).mp h
    have hinn' := collectYakuList_nodup d.yaku _ _ hinn hcl
    subst hy
    refine ⟨nodup_keys_aset yi _ _ hk, fun p hp => ?_⟩
    rcases mem_aset yi _ _ p hp with hm | hp2
    · exact hin p hm
    · rw [hp2]
      exact hinn'

theorem collectDetails_nodup (names : Fin 4 → Name) (ds : List HoraDetail) :
    ∀ (yi yi' : List (Name × List (Name × Nat))),
    (yi.map Prod.fst).Nodup → (∀ p ∈ yi, (p.2.map Prod.fst).Nodup) →
    collectDetails names yi ds = .ok yi' →
    (yi'.map Prod.fst).Nodup ∧ ∀ p ∈ yi', (p.2.map Prod.fst).Nodup := by
  induction ds with
  | nil =>
    intro yi yi' hk hin h
    have hi : yi = yi' := (Except.ok.injEq _ _).mp h
    exact hi ▸ ⟨hk, hin⟩
  | cons d ds ih =>
    intro yi yi' hk hin h
    simp only [collectDetails] at h
    cases hd : collectDetail names yi d with
    | error e =>
      rw [hd] at h
      exact Except.noConfusion (h : (Except.error e : Except String _) = .ok yi')
    | ok yi₁ =>
      rw [hd] at h
      obtain ⟨hk1, hin1⟩ := collectDetail_nodup names yi yi₁ d hk hin hd
      exact ih yi₁ yi' hk1 hin1 h

theorem collectKyokus_nodup (names : Fin 4 → Name) (kys : List Kyoku) :
    ∀ (yi yi' : List (Name × List (Name × Nat))),
    (yi.map Prod.fst).Nodup → (∀ p ∈ yi, (p.2.map Prod.fst).Nodup) →
    collectKyokus names yi kys = .ok yi' →
    (yi'.map Prod.fst).Nodup ∧ ∀ p ∈ yi', (p.2.map Prod.fst).Nodup := by
  induction kys with
  | nil =>
    intro yi yi' hk hin h
    have hi : yi = yi' := (Except.ok.injEq _ _).mp h
    exact hi ▸ ⟨hk, hin⟩
  | cons ky kys ih =>
    intro yi yi' hk hin h
    simp only [collectKyokus] at h
    cases hke : ky.endStatus with
    | ryukyoku =>
      rw [hke] at h
      exact ih yi yi' hk hin h
    | hora ds =>
      rw [hke] at h
      have h5 : (match collectDetails names yi ds with
          | Except.error e => Except.error e
          | Except.ok yi2 => collectKyokus names yi2 kys) = Except.ok yi' := h
      cases hd : collectDetails names yi ds with
      | error e =>
        rw [hd] at h5
        exact Except.noConfusion (h5 : (Except.error e : Except String _) = .ok yi')
      | ok yi₁ =>
        rw [hd] at h5
        obtain ⟨hk1, hin1⟩ := collectDetails_nodup names ds yi yi₁ hk hin hd
        exact ih yi₁ yi' hk1 hin1 h5

theorem runSeats_nodup {S : Type} (sim : Sim S) (lg : GameLog) (dur : Option Nat) :
    ∀ (ps : List (Fin 4)) (pi pi' : List (Name × PlayerInfo)),
    (pi.map Prod.fst).Nodup → runSeats sim lg dur pi ps = .ok pi' →
    (pi'.map Prod.fst).Nodup := by
  intro ps
  induction ps with
  | nil =>
    intro pi pi' hn h
    have hi : pi = pi' := (Except.ok.injEq _ _).mp h
    exact hi ▸ hn
  | cons p ps ih =>
    intro pi pi' hn h
    simp only [runSeats] at h
    cases hp : replayPlayer sim lg dur p pi with
    | error e =>
      rw [hp] at h
      exact Except.noConfusion (h : (Except.error e : Except String _) = .ok pi')
    | ok pi₁ =>
      rw [hp] at h
      have hn1 : (pi₁.map Prod.fst).Nodup := by
        rw [replayPlayer_eq] at hp
        cases hsd : seatDelta sim lg dur p with
        | error e =>
          rw [hsd] at hp
          simp only [Except.map] at hp
          exact Except.noConfusion hp
        | ok c =>
          rw [hsd] at hp
          simp only [Except.map, Except.ok.injEq] at hp
          exact hp ▸ nodup_keys_aset pi _ _ hn
      exact ih pi₁ pi' hn1 h

theorem processLog_nodup {S : Type} (sim : Sim S) (lg : GameLog)
    (pi pi' : List (Name × PlayerInfo)) (yi yi' : List (Name × List (Name × Nat)))
    (hpk : (pi.map Prod.fst).Nodup)
    (hyk : (yi.map Prod.fst).Nodup) (hin : ∀ p ∈ yi, (p.2.map Prod.fst).Nodup)
    (h : processLog sim lg pi yi = .ok (pi', yi')) :
    (pi'.map Prod.fst).Nodup ∧
    (yi'.map Prod.fst).Nodup ∧ ∀ p ∈ yi', (p.2.map Prod.fst).Nodup := by
  simp only [processLog] at h
  cases hdur : computeDuration lg.mjshead with
  | error e =>
    rw [hdur] at h
    exact Except.noConfusion (h : (Except.error e : Except String _) = .ok (pi', yi'))
  | ok dur =>
    rw [hdur] at h
    have h2 : (match collectKyokus lg.names yi lg.kyokus with
        | Except.error e => Except.error e
        | Except.ok yi2 =>
          match runSeats sim lg dur pi (List.finRange 4) with
          | Except.error e => Except.error e
          | Except.ok pi2 => Except.ok (pi2, yi2)) = Except.ok (pi', yi') := h
    cases hcol : collectKyokus lg.names yi lg.kyokus with
    | error e =>
      rw [hcol] at h2
      exact Except.noConfusion (h2 : (Except.error e : Except String _) = .ok (pi', yi'))
    | ok yi₁ =>
      rw [hcol] at h2
      cases hrs : runSeats sim lg dur pi (List.finRange 4) with
      | error e =>
        rw [hrs] at h2
        exact Except.noConfusion (h2 : (Except.error e : Except String _) = .ok (pi', yi'))
      | ok pi₁ =>
        rw [hrs] at h2
        have h3 : pi₁ = pi' ∧ yi₁ = yi' := by
          have h4 : (pi₁, yi₁) = (pi', yi') := (Except.ok.injEq _ _).mp h2
          exact ⟨congrArg Prod.fst h4, congrArg Prod.snd h4⟩
        obtain ⟨rfl, rfl⟩ := h3
        obtain ⟨hy1, hy2⟩ := collectKyokus_nodup lg.names lg.kyokus yi yi₁ hyk hin hcol
        exact ⟨runSeats_nodup sim lg dur (List.finRange 4) pi pi₁ hpk hrs, hy1, hy2⟩

theorem runLogs_nodup {S : Type} (sim : Sim S) : ∀ (logs : List GameLog)
    (pi pi' : List (Name × PlayerInfo)) (yi yi' : List (Name × List (Name × Nat))),
    (pi.map Prod.fst).Nodup →
    (yi.map Prod.fst).Nodup → (∀ p ∈ yi, (p.2.map Prod.fst).Nodup) →
    runLogs sim pi yi logs = .ok (pi', yi') →
    (pi'.map Prod.fst).Nodup ∧
    (yi'.map Prod.fst).Nodup ∧ ∀ p ∈ yi', (p.2.map Prod.fst).Nodup := by
  intro logs
  induction logs with
  | nil =>
    intro pi pi' yi yi' hpk hyk hin h
    have h3 : pi = pi' ∧ yi = yi' := by
      have h4 : (pi, yi) = (pi', yi') := (Except.ok.injEq _ _).mp h
      exact ⟨congrArg Prod.fst h4, congrArg Prod.snd h4⟩
    obtain ⟨rfl, rfl⟩ := h3
    exact ⟨hpk, hyk, hin⟩
  | cons lg logs ih =>
    intro pi pi' yi yi' hpk hyk hin h
    simp only [runLogs] at h
    cases hp : processLog sim lg pi yi with
    | error e =>
      rw [hp] at h
      exact Except.noConfusion (h : (Except.error e : Except String _) = .ok (pi', yi'))
    | ok acc =>
      obtain ⟨pi₁, yi₁⟩ := acc
      rw [hp] at h
      obtain ⟨h1, h2, h3⟩ := processLog_nodup sim lg pi pi₁ yi yi₁ hpk hyk hin hp
      exact ih pi₁ pi' yi₁ yi' h1 h2 h3 h

theorem runAll_nodup {S : Type} (sim : Sim S) (logs : List GameLog)
    (pi : List (Name × PlayerInfo)) (yi : List (Name × List (Name × Nat)))
    (h : runAll sim logs = .ok (pi, yi)) :
    (pi.map Prod.fst).Nodup ∧
    (yi.map Prod.fst).Nodup ∧ ∀ p ∈ yi, (p.2.map Prod.fst).Nodup :=
  runLogs_nodup sim logs [] pi [] yi (by simp) (by simp) (by simp) h

/-- Strict precedence in a reference name list: both names occur and the
first occurs strictly earlier. -/
def posLt (no : List Name) (a b : Name) : Prop :=
  ∃ i j, posIn no a = some i ∧ posIn no b = some j ∧ i < j

theorem posLt_antisymm (no : List Name) (a b : Name)
    (h1 : posLt no a b) (h2 : posLt no b a) : a = b := by
  obtain ⟨i, j, hi, hj, hij⟩ := h1
  obtain ⟨i2, j2, hi2, hj2, hij2⟩ := h2
  have e1 : i = j2 := by
    rw [hi] at hj2
    exact (Option.some.injEq _ _).mp hj2
  have e2 : j = i2 := by
    rw [hj] at hi2
    exact (Option.some.injEq _ _).mp hi2
  exact absurd hij (by omega)

theorem optLe_total (x y : Option Nat) : optLe x y || optLe y x := by
  cases x <;> cases y <;> simp [optLe] <;> omega

theorem optLe_trans (x y z : Option Nat) (h1 : optLe x y = true)
    (h2 : optLe y z = true) : optLe x z = true := by
  cases x <;> cases y <;> cases z <;> simp [optLe] at * <;> omega

theorem sortBy_posIn_map_fst {β : Type} (no : List Name) (hno : no.Nodup)
    (yent : List (Name × β)) (hyk : (yent.map Prod.fst).Nodup)
    (hmem : ∀ p ∈ yent, p.1 ∈ no) :
    (sortBy (fun a b => optLe (posIn no a.1) (posIn no b.1)) yent).map Prod.fst =
      no.filter (fun n => decide (n ∈ yent.map Prod.fst)) := by
  have hperm0 := sortBy_perm (fun a b => optLe (posIn no a.1) (posIn no b.1)) yent
  have hpermmap := hperm0.map Prod.fst
  have hnd1 : ((sortBy (fun a b => optLe (posIn no a.1) (posIn no b.1)) yent).map
      Prod.fst).Nodup := (List.Perm.nodup_iff hpermmap).mpr hyk
  have hnd2 : (no.filter (fun n => decide (n ∈ yent.map Prod.fst))).Nodup :=
    List.Nodup.filter _ hno
  have hmemiff : ∀ n,
      n ∈ (sortBy (fun a b => optLe (posIn no a.1) (posIn no b.1)) yent).map Prod.fst ↔
      n ∈ no.filter (fun n => decide (n ∈ yent.map Prod.fst)) := by
    intro n
    rw [hpermmap.mem_iff, List.mem_filter]
    simp only [decide_eq_true_eq]
    constructor
    · intro hm
      refine ⟨?_, hm⟩
      obtain ⟨p, hp, hpe⟩ := List.mem_map.mp hm
      exact hpe ▸ hmem p hp
    · exact fun h => h.2
  have hpermL : ((sortBy (fun a b => optLe (posIn no a.1) (posIn no b.1)) yent).map
      Prod.fst).Perm (no.filter (fun n => decide (n ∈ yent.map Prod.fst))) :=
    (List.perm_ext_iff_of_nodup hnd1 hnd2).mpr hmemiff
  have h2s : (no.filter (fun n => decide (n ∈ yent.map Prod.fst))).Pairwise (posLt no) :=
    List.Pairwise.filter _ (nodup_pairwise_pos no hno)
  have h1le := sortBy_pairwise (fun a b : Name × β => optLe (posIn no a.1) (posIn no b.1))
    (fun a b => optLe_total _ _) (fun a b c => optLe_trans _ _ _) yent
  have h1le2 : ((sortBy (fun a b => optLe (posIn no a.1) (posIn no b.1)) yent).map
      Prod.fst).Pairwise (fun n m => optLe (posIn no n) (posIn no m) = true) :=
    List.pairwise_map.mpr h1le
  have h1s : ((sortBy (fun a b => optLe (posIn no a.1) (posIn no b.1)) yent).map
      Prod.fst).Pairwise (posLt no) := by
    have hand := List.Pairwise.and h1le2 hnd1
    refine hand.imp_of_mem ?_
    intro a b ha hb hab
    obtain ⟨hle, hne⟩ := hab
    have han : a ∈ no := (List.mem_filter.mp ((hmemiff a).mp ha)).1
    have hbn : b ∈ no := (List.mem_filter.mp ((hmemiff b).mp hb)).1
    obtain ⟨i, hi⟩ := posIn_mem no a han
    obtain ⟨j, hj⟩ := posIn_mem no b hbn
    rw [hi, hj] at hle
    have hij : i ≤ j := by simpa [optLe] using hle
    refine ⟨i, j, hi, hj, Nat.lt_of_le_of_ne hij ?_⟩
    intro he
    exact hne (posIn_inj no a b i hi (he ▸ hj))
  haveI : IsAntisymm Name (posLt no) := ⟨posLt_antisymm no⟩
  exact List.eq_of_perm_of_sorted hpermL h1s h2s

theorem map_fst_pair_map {β γ : Type} (l : List (Name × β)) (g : Name × β → γ) :
    (l.map (fun p => (p.1, g p))).map Prod.fst = l.map Prod.fst := by
  rw [List.map_map]
  rfl

theorem yakuRows_names (pi : List (Name × PlayerInfo)) (yi : List (Name × List (Name × Nat)))
    (hpi : (pi.map Prod.fst).Nodup) (hyi : (yi.map Prod.fst).Nodup) :
    (assembleReport pi yi).yakuRows.map Prod.fst =
      (assembleReport pi yi).nameOrder.filter (fun n => decide (n ∈ yi.map Prod.fst)) := by
  simp only [assembleReport]
  rw [map_fst_pair_map]
  have hno : ((sortBy (fun a b => decide (b.2.kyoku_count ≤ a.2.kyoku_count))
      (pi.filter (fun p => decide (p.2.kyoku_count > 100) && !containsSeq ashlenStr p.1))).map
      Prod.fst).Nodup := by
    refine (List.Perm.nodup_iff ((sortBy_perm _ _).map Prod.fst)).mpr ?_
    exact List.Nodup.sublist ((List.filter_sublist pi).map Prod.fst) hpi
  have hyentk : ((yi.filter (fun p => decide (p.1 ∈
      (sortBy (fun a b => decide (b.2.kyoku_count ≤ a.2.kyoku_count))
        (pi.filter (fun p => decide (p.2.kyoku_count > 100) && !containsSeq ashlenStr p.1))).map
      Prod.fst))).map Prod.fst).Nodup :=
    List.Nodup.sublist ((List.filter_sublist yi).map Prod.fst) hyi
  have hmem : ∀ p ∈ yi.filter (fun p => decide (p.1 ∈
      (sortBy (fun a b => decide (b.2.kyoku_count ≤ a.2.kyoku_count))
        (pi.filter (fun p => decide (p.2.kyoku_count > 100) && !containsSeq ashlenStr p.1))).map
      Prod.fst)), p.1 ∈
      (sortBy (fun a b => decide (b.2.kyoku_count ≤ a.2.kyoku_count))
        (pi.filter (fun p => decide (p.2.kyoku_count > 100) && !containsSeq ashlenStr p.1))).map
      Prod.fst := by
    intro p hp
    exact of_decide_eq_true (List.mem_filter.mp hp).2
  rw [sortBy_posIn_map_fst _ hno _ hyentk hmem]
  refine List.filter_congr ?_
  intro n hn
  refine decide_eq_decide.mpr ?_
  constructor
  · intro hm
    obtain ⟨p, hp, hpe⟩ := List.mem_map.mp hm
    exact hpe ▸ List.mem_map_of_mem Prod.fst (List.mem_filter.mp hp).1
  · intro hm
    obtain ⟨p, hp, hpe⟩ := List.mem_map.mp hm
    refine List.mem_map.mpr ⟨p, List.mem_filter.mpr ⟨hp, ?_⟩, hpe⟩
    exact decide_eq_true (by rw [hpe]; exact hn)

/-- C1 (corrected): the yaku table's rows are the retained primary-table
names in the primary order RESTRICTED to names having a yaku-tally entry; a
retained player with no winning declaration in any log is absent from the
yaku table (a name has an entry iff it was the actor of some winning
declaration of some log). -/
theorem claim_C1 (S : Type) (sim : Sim S) (logs : List GameLog)
    (pi : List (Name × PlayerInfo)) (yi : List (Name × List (Name × Nat)))
    (h : runAll sim logs = .ok (pi, yi)) :
    (assembleReport pi yi).yakuRows.map Prod.fst =
      (assembleReport pi yi).nameOrder.filter (fun n => decide (n ∈ yi.map Prod.fst)) ∧
    (∀ n, n ∈ yi.map Prod.fst ↔ ∃ lg ∈ logs, hasActor lg n = true) := by
  obtain ⟨hpk, hyk, -⟩ := runAll_nodup sim logs pi yi h
  refine ⟨yakuRows_names pi yi hpk hyk, fun n => ?_⟩
  have h3 := (runLogs_char sim logs [] pi [] yi h).2.2 n
  rw [h3]
  simp

def c1Run : Except String (List (Name × PlayerInfo) × List (Name × List (Name × Nat))) :=
  runAll trivSim [cexLog1]

def c1Pi : List (Name × PlayerInfo) :=
  match c1Run with
  | .ok p => p.1
  | .error _ => []

def c1Yi : List (Name × List (Name × Nat)) :=
  match c1Run with
  | .ok p => p.2
  | .error _ => []

theorem claim_C1_counterexample :
    runAll trivSim [cexLog1] = .ok (c1Pi, c1Yi) ∧
    nmA ∈ (assembleReport c1Pi c1Yi).nameOrder ∧
    nmA ∉ (assembleReport c1Pi c1Yi).yakuRows.map Prod.fst :=
  ⟨rfl, by decide, by decide⟩

theorem claim_C1_witness :
    (assembleReport c1Pi c1Yi).yakuRows.map Prod.fst =
      (assembleReport c1Pi c1Yi).nameOrder.filter (fun n => decide (n ∈ c1Yi.map Prod.fst)) ∧
    (nmA ∈ c1Yi.map Prod.fst ↔ ∃ lg ∈ [cexLog1], hasActor lg nmA = true) :=
  let h := claim_C1 Unit trivSim [cexLog1] c1Pi c1Yi (by rfl)
  ⟨h.1, h.2 nmA⟩

/-! ## Global yaku totals -/

theorem accumTotals_nodup : ∀ (inner t : List (Name × Nat)),
    (t.map Prod.fst).Nodup → ((accumTotals t inner).map Prod.fst).Nodup := by
  intro inner
  induction inner with
  | nil =>
    intro t h
    exact h
  | cons q rest ih =>
    intro t h
    obtain ⟨k, v⟩ := q
    rw [accumTotals]
    exact ih _ (nodup_keys_aset t k _ h)

theorem mem_keys_accumTotals : ∀ (inner t : List (Name × Nat)) (n : Name),
    n ∈ (accumTotals t inner).map Prod.fst ↔
      n ∈ t.map Prod.fst ∨ n ∈ inner.map Prod.fst := by
  intro inner
  induction inner with
  | nil =>
    intro t n
    simp [accumTotals]
  | cons q rest ih =>
    intro t n
    obtain ⟨k, v⟩ := q
    rw [accumTotals, ih, mem_keys_aset]
    simp only [List.map_cons, List.mem_cons]
    tauto

theorem alookup_accumTotals : ∀ (inner t : List (Name × Nat)) (n : Name),
    (inner.map Prod.fst).Nodup →
    (alookup (accumTotals t inner) n).getD 0 =
      (alookup t n).getD 0 + (alookup inner n).getD 0 := by
  intro inner
  induction inner with
  | nil =>
    intro t n _
    simp [accumTotals, alookup]
  | cons q rest ih =>
    intro t n hnd
    obtain ⟨k, v⟩ := q
    rw [List.map_cons, List.nodup_cons] at hnd
    rw [accumTotals, ih _ n hnd.2, alookup_aset, alookup]
    by_cases hk : k = n
    · subst hk
      rw [if_pos rfl, if_pos rfl]
      have hrest : alookup rest k = none := (alookup_eq_none rest k).mpr hnd.1
      rw [hrest]
      simp only [Option.getD_some, Option.getD_none, Nat.add_zero]
    · rw [if_neg hk, if_neg hk]

theorem foldTotals_nodup (yis : List (Name × List (Name × Nat))) :
    ∀ t : List (Name × Nat), (t.map Prod.fst).Nodup →
    ((yis.foldl (fun t p => accumTotals t p.2) t).map Prod.fst).Nodup := by
  induction yis with
  | nil =>
    intro t h
    exact h
  | cons q rest ih =>
    intro t h
    rw [List.foldl_cons]
    exact ih _ (accumTotals_nodup q.2 t h)

theorem foldTotals_mem (yis : List (Name × List (Name × Nat))) :
    ∀ (t : List (Name × Nat)) (n : Name),
    n ∈ (yis.foldl (fun t p => accumTotals t p.2) t).map Prod.fst ↔
      n ∈ t.map Prod.fst ∨ ∃ p ∈ yis, n ∈ p.2.map Prod.fst := by
  induction yis with
  | nil =>
    intro t n
    simp
  | cons q rest ih =>
    intro t n
    rw [List.foldl_cons, ih, mem_keys_accumTotals]
    constructor
    · rintro ((h | h) | ⟨p, hp, hm⟩)
      · exact Or.inl h
      · exact Or.inr ⟨q, List.mem_cons_self _ _, h⟩
      · exact Or.inr ⟨p, List.mem_cons_of_mem _ hp, hm⟩
    · rintro (h | ⟨p, hp, hm⟩)
      · exact Or.inl (Or.inl h)
      · rcases List.mem_cons.mp hp with rfl | hp2
        · exact Or.inl (Or.inr hm)
        · exact Or.inr ⟨p, hp2, hm⟩

theorem foldTotals_lookup (yis : List (Name × List (Name × Nat))) :
    ∀ (t : List (Name × Nat)) (n : Name), (∀ p ∈ yis, (p.2.map Prod.fst).Nodup) →
    (alookup (yis.foldl (fun t p => accumTotals t p.2) t) n).getD 0 =
      (alookup t n).getD 0 + (yis.map (fun p => (alookup p.2 n).getD 0)).sum := by
  induction yis with
  | nil =>
    intro t n _
    simp
  | cons q rest ih =>
    intro t n hin
    rw [List.foldl_cons, ih _ n (fun p hp => hin p (List.mem_cons_of_mem _ hp)),
      alookup_accumTotals q.2 t n (hin q (List.mem_cons_self _ _))]
    simp [Nat.add_assoc]

/-- C2 (corrected): the yaku table's columns are every distinct
scoring-condition name observed in any player's tally, each carrying — and
ordered descending by — the total occurrence count computed over ALL players
(not only the retained ones), and every row's cells are the zero-default
lookups of that row's tally at the column names. -/
theorem claim_C2 (S : Type) (sim : Sim S) (logs : List GameLog)
    (pi : List (Name × PlayerInfo)) (yi : List (Name × List (Name × Nat)))
    (h : runAll sim logs = .ok (pi, yi)) :
    (∀ n, n ∈ (assembleReport pi yi).yakuOrder.map Prod.fst ↔
      ∃ p ∈ yi, n ∈ p.2.map Prod.fst) ∧
    (∀ x ∈ (assembleReport pi yi).yakuOrder,
      x.2 = (yi.map (fun p => (alookup p.2 x.1).getD 0)).sum) ∧
    (assembleReport pi yi).yakuOrder.Pairwise (fun a b => b.2 ≤ a.2) ∧
    (∀ x ∈ (assembleReport pi yi).yakuRows, ∃ tally, (x.1, tally) ∈ yi ∧
      x.2 = (assembleReport pi yi).yakuOrder.map (fun q => (alookup tally q.1).getD 0)) := by
  obtain ⟨-, -, hin⟩ := runAll_nodup sim logs pi yi h
  have hperm := sortBy_perm (fun a b : Name × Nat => decide (b.2 ≤ a.2)) (totalYakuCounts yi)
  have htk : ((totalYakuCounts yi).map Prod.fst).Nodup :=
    foldTotals_nodup yi [] (by simp)
  simp only [assembleReport]
  refine ⟨fun n => ?_, fun x hx => ?_, ?_, fun x hx => ?_⟩
  · rw [(hperm.map Prod.fst).mem_iff]
    have hm := foldTotals_mem yi [] n
    rw [totalYakuCounts, hm]
    simp
  · have hx2 : x ∈ totalYakuCounts yi := hperm.mem_iff.mp hx
    have hl : alookup (totalYakuCounts yi) x.1 = some x.2 :=
      (mem_iff_alookup (totalYakuCounts yi) htk x.1 x.2).mp (by
        obtain ⟨x1, x2⟩ := x
        exact hx2)
    have hlk := foldTotals_lookup yi [] x.1 hin
    rw [totalYakuCounts] at hl
    rw [hl] at hlk
    simp only [Option.getD_some, alookup, Option.getD_none] at hlk
    rw [hlk]
    simp [alookup]
  · have hp := sortBy_pairwise (fun a b : Name × Nat => decide (b.2 ≤ a.2))
      (fun a b => by simp; omega) (fun a b c h1 h2 => by simp at *; omega)
      (totalYakuCounts yi)
    exact hp.imp (fun hab => of_decide_eq_true hab)
  · obtain ⟨p, hp, hpe⟩ := List.mem_map.mp hx
    have hps : p ∈ yi.filter (fun p => decide (p.1 ∈
        (sortBy (fun a b => decide (b.2.kyoku_count ≤ a.2.kyoku_count))
          (pi.filter (fun p => decide (p.2.kyoku_count > 100) &&
            !containsSeq ashlenStr p.1))).map Prod.fst)) :=
      (sortBy_perm _ _).mem_iff.mp hp
    have hpyi : p ∈ yi := (List.mem_filter.mp hps).1
    refine ⟨p.2, ?_, ?_⟩
    · rw [← hpe]
      exact hpyi
    · rw [← hpe]

/-- The spec's reading of the column key: total occurrence count over the
RETAINED players only (tallies of non-retained players excluded). -/
def retainedTotal (yi : List (Name × List (Name × Nat))) (no : List Name)
    (n : Name) : Nat :=
  (alookup (totalYakuCounts (yi.filter (fun p => decide (p.1 ∈ no)))) n).getD 0

def c2Run : Except String (List (Name × PlayerInfo) × List (Name × List (Name × Nat))) :=
  runAll trivSim [cexLog2]

def c2Pi : List (Name × PlayerInfo) :=
  match c2Run with
  | .ok p => p.1
  | .error _ => []

def c2Yi : List (Name × List (Name × Nat)) :=
  match c2Run with
  | .ok p => p.2
  | .error _ => []

theorem claim_C2_counterexample :
    runAll trivSim [cexLog2] = .ok (c2Pi, c2Yi) ∧
    ¬ (assembleReport c2Pi c2Yi).yakuOrder.Pairwise (fun a b =>
        retainedTotal c2Yi (assembleReport c2Pi c2Yi).nameOrder b.1 ≤
          retainedTotal c2Yi (assembleReport c2Pi c2Yi).nameOrder a.1) :=
  ⟨rfl, by decide⟩

theorem claim_C2_witness :
    (assembleReport c2Pi c2Yi).yakuOrder.Pairwise (fun a b => b.2 ≤ a.2) :=
  (claim_C2 Unit trivSim [cexLog2] c2Pi c2Yi (by rfl)).2.2.1
